import Mathlib

/-
Verification of the `fast_rs` front-end parser (src/src/parse.rs).

The parser is written with the nom combinator library over a `Span` cursor
into the source text.  We shallow-embed it here: the source text is a fixed
`List Char`, a cursor is a byte offset `Nat`, and a parser is a function
from an offset to a result that is either `ok` (new offset and value),
a `soft` failure (nom's `Err::Error`: an enclosing `alt` may try the next
alternative) or a `fatal` failure (nom's `Err::Failure`, produced by `cut`:
an enclosing `alt` must not retry).  Both failures carry the offset held by
the nom error value.  The nom combinators used by parse.rs are reproduced
with their nom 7 semantics, including `alt` keeping the error of its last
alternative, the zero-consumption checks of `many0`/`separated_list0`, and
`cut` turning a soft failure into a fatal one.

The mutually recursive grammar rules take a fuel argument: a rule at fuel
`n+1` calls its sub-rules at fuel `n`, and at fuel 0 every rule fails
softly.  Fuel only ever cuts runs short, so any statement of the form
"whenever the rule succeeds, ..." quantifies over all fuels, and concrete
runs use a generous fuel.
-/

namespace FastRs

abbrev Src := List Char

/-- Modelled from the spec: the `Span` record of the missing span.rs —
an immutable `[start, stop)` range of offsets into the one source buffer
(spec §3).  The repository's cursor (`Input`) is a `Span` whose `start`
is the current position; here a cursor is just the position, so both span
construction primitives of spec §4.1 become offset arithmetic. -/
structure Span where
  start : Nat
  stop : Nat
deriving DecidableEq, Repr

/-- Modelled from the spec: `between(start_cursor, end_cursor)` — the range
consumed going from the first cursor to the second (spec §4.1). -/
def Span.between (s s1 : Nat) : Span := ⟨s, s1⟩

/-- Modelled from the spec: `to(start_cursor, end_span)` — a span starting
at the cursor and ending where `end_span` ends, used to grow application
chains (spec §4.1). -/
def Span.to (s : Nat) (e : Span) : Span := ⟨s, e.stop⟩

/-- Containment of `inner` in `outer` (the containment invariant of spec §3). -/
def Span.covers (outer inner : Span) : Prop :=
  outer.start ≤ inner.start ∧ inner.stop ≤ outer.stop

instance (a b : Span) : Decidable (Span.covers a b) := by
  unfold Span.covers; infer_instance

/-- Result of running a parser: nom's `IResult`.  `ok j v` returns the new
offset and the value; `soft j` is `Err::Error` and `fatal j` is
`Err::Failure`, each carrying the offset stored in the nom error. -/
inductive PRes (α : Type) where
  | ok : Nat → α → PRes α
  | soft : Nat → PRes α
  | fatal : Nat → PRes α
deriving DecidableEq, Repr

abbrev Parser (α : Type) := Nat → PRes α

namespace Nom

/-- Sequence a result into a continuation; failures propagate unchanged. -/
def bindR {α β : Type} : PRes α → (Nat → α → PRes β) → PRes β
  | .ok j a, f => f j a
  | .soft j, _ => .soft j
  | .fatal j, _ => .fatal j

def map {α β : Type} (f : α → β) (p : Parser α) : Parser β := fun i =>
  bindR (p i) fun j a => .ok j (f a)

def value {α β : Type} (v : β) (p : Parser α) : Parser β := map (fun _ => v) p

def pair {α β : Type} (p : Parser α) (q : Parser β) : Parser (α × β) := fun i =>
  bindR (p i) fun j a => bindR (q j) fun k b => .ok k (a, b)

def preceded {α β : Type} (p : Parser α) (q : Parser β) : Parser β := fun i =>
  bindR (p i) fun j _ => q j

def terminated {α β : Type} (p : Parser α) (q : Parser β) : Parser α := fun i =>
  bindR (p i) fun j a => bindR (q j) fun k _ => .ok k a

def delimited {α β γ : Type} (p : Parser α) (q : Parser β) (r : Parser γ) :
    Parser β := fun i =>
  bindR (p i) fun j _ => bindR (q j) fun k b => bindR (r k) fun l _ => .ok l b

/-- nom's `alt` of two parsers: on a soft failure of the first, try the
second at the same position; nom's default error type keeps the second
(last) error. `ok` and `fatal` short-circuit. -/
def alt2 {α : Type} (p q : Parser α) : Parser α := fun i =>
  match p i with
  | .soft _ => q i
  | r => r

def alt3 {α : Type} (p q r : Parser α) : Parser α := alt2 p (alt2 q r)

def alt4 {α : Type} (p q r s : Parser α) : Parser α := alt2 p (alt3 q r s)

def alt5 {α : Type} (p q r s t : Parser α) : Parser α := alt2 p (alt4 q r s t)

def alt6 {α : Type} (p q r s t u : Parser α) : Parser α := alt2 p (alt5 q r s t u)

/-- nom's `cut`: turn a soft failure into a fatal one. -/
def cut {α : Type} (p : Parser α) : Parser α := fun i =>
  match p i with
  | .soft j => .fatal j
  | r => r

/-- nom's `not`: succeed without consuming exactly when `p` fails softly;
the error of a succeeding `p` is reported at the current position. -/
def pnot {α : Type} (p : Parser α) : Parser Unit := fun i =>
  match p i with
  | .ok _ _ => .soft i
  | .soft _ => .ok i ()
  | .fatal j => .fatal j

/-- nom's `opt`: a soft failure becomes `none` without consuming. -/
def opt {α : Type} (p : Parser α) : Parser (Option α) := fun i =>
  match p i with
  | .ok j a => .ok j (some a)
  | .soft _ => .ok i none
  | .fatal j => .fatal j

/-- nom's `consumed`: run `p` and also return the range it consumed. -/
def consumed {α : Type} (p : Parser α) : Parser (Span × α) := fun i =>
  bindR (p i) fun j a => .ok j (⟨i, j⟩, a)

/-- nom's `many0`, with an explicit iteration bound: repeat `p` until it
fails softly; a success that consumes nothing is an error (nom's
`ErrorKind::Many0` infinite-loop check); a fatal failure propagates. -/
def many0 {α : Type} : Nat → Parser α → Parser (List α)
  | 0, _ => fun i => .soft i
  | n + 1, p => fun i =>
    match p i with
    | .soft _ => .ok i []
    | .fatal j => .fatal j
    | .ok j a =>
      if j = i then .soft i
      else bindR (many0 n p j) fun k as => .ok k (a :: as)

/-- nom's `many1`: `p` once (propagating its error), then as `many0`. -/
def many1 {α : Type} (fuel : Nat) (p : Parser α) : Parser (List α) := fun i =>
  bindR (p i) fun j a => bindR (many0 fuel p j) fun k as => .ok k (a :: as)

/-- The loop of nom's `separated_list0` after the first element: `sep`
then `p`; a soft failure of either ends the list before that `sep`;
a `sep` success that consumes nothing is an error (nom's
`ErrorKind::SeparatedList` check); fatal failures propagate. -/
def sepLoop {α β : Type} : Nat → Parser α → Parser β → Parser (List β)
  | 0, _, _ => fun i => .soft i
  | n + 1, sep, p => fun i =>
    match sep i with
    | .soft _ => .ok i []
    | .fatal j => .fatal j
    | .ok s1 _ =>
      if s1 = i then .soft i
      else
        match p s1 with
        | .soft _ => .ok i []
        | .fatal j => .fatal j
        | .ok i2 a => bindR (sepLoop n sep p i2) fun k as => .ok k (a :: as)

/-- nom's `separated_list0`. -/
def separatedList0 {α β : Type} (fuel : Nat) (sep : Parser α) (p : Parser β) :
    Parser (List β) := fun i =>
  match p i with
  | .soft _ => .ok i []
  | .fatal j => .fatal j
  | .ok j a => bindR (sepLoop fuel sep p j) fun k as => .ok k (a :: as)

/-- Length of the maximal prefix whose characters satisfy `f`. -/
def spanLen (f : Char → Bool) : List Char → Nat
  | [] => 0
  | c :: cs => if f c then spanLen f cs + 1 else 0

/-- One-or-more characters of a class (nom's `digit1`/`alpha1`/... shape):
consume the maximal run, failing softly if it is empty. -/
def charClass1 (f : Char → Bool) (src : Src) : Parser Unit := fun i =>
  if spanLen f (src.drop i) = 0 then .soft i
  else .ok (i + spanLen f (src.drop i)) ()

/-- nom's `digit1` (ASCII digits). -/
def digit1 (src : Src) : Parser Unit := charClass1 Char.isDigit src

/-- nom's `alpha1` (ASCII letters). -/
def alpha1 (src : Src) : Parser Unit := charClass1 Char.isAlpha src

/-- nom's `alphanumeric1` (ASCII letters and digits). -/
def alphanumeric1 (src : Src) : Parser Unit := charClass1 Char.isAlphanum src

/-- nom's `multispace0`: zero or more of space, tab, carriage return,
newline; never fails. -/
def multispace0 (src : Src) : Parser Unit := fun i =>
  .ok (i + spanLen Char.isWhitespace (src.drop i)) ()

/-- nom's `tag`: match the literal `t` at the cursor. -/
def tag (t : List Char) (src : Src) : Parser Unit := fun i =>
  if t.isPrefixOf (src.drop i) then .ok (i + t.length) () else .soft i

end Nom

/-- Modelled from the spec: the `Ellipsis` record of the missing expr.rs —
a `..` marker's span and the optional bound identifier's span (spec §3). -/
structure Ellipsis where
  span : Span
  id : Option Span
deriving DecidableEq, Repr

mutual
/-- Modelled from the spec: the `Expr` tree of the missing expr.rs, with
the variants and span payloads of spec §3 as parse.rs constructs them.
`app` carries span, callee, argument-list span and arguments. -/
inductive Expr where
  | int : Span → Expr
  | tag : Span → Span → Expr
  | id : Span → Expr
  | tuple : Span → List Expr → Expr
  | paren : Span → Expr → Expr
  | fn : Span → Span → Expr → Expr
  | app : Span → Expr → Span → List Expr → Expr
  | caseE : Span → Expr → List Arm → Expr
  | doE : Span → List Statement → Option Expr → Expr
  | expand : Ellipsis → Expr

/-- Modelled from the spec: the `Pattern` tree of the missing expr.rs
(spec §3).  `app` carries span, head, argument-list span and sub-patterns. -/
inductive Pattern where
  | int : Span → Pattern
  | tag : Span → Span → Pattern
  | id : Span → Pattern
  | ignore : Span → Pattern
  | tuple : Span → List Pattern → Pattern
  | paren : Span → Pattern → Pattern
  | app : Span → Pattern → Span → List Pattern → Pattern
  | collect : Ellipsis → Pattern

/-- Modelled from the spec: one `of <pattern> = <expr>` clause (spec §3). -/
inductive Arm where
  | mk : Span → Pattern → Expr → Arm

/-- Modelled from the spec: a block statement (spec §3). -/
inductive Statement where
  | assign : Span → Pattern → Expr → Statement
  | expr : Expr → Statement
end

def Arm.span : Arm → Span
  | .mk s _ _ => s

def Arm.pattern : Arm → Pattern
  | .mk _ p _ => p

def Arm.expr : Arm → Expr
  | .mk _ _ e => e

/-- The span stored at the root of an expression node. -/
def espan : Expr → Span
  | .int s => s
  | .tag s _ => s
  | .id s => s
  | .tuple s _ => s
  | .paren s _ => s
  | .fn s _ _ => s
  | .app s _ _ _ => s
  | .caseE s _ _ => s
  | .doE s _ _ => s
  | .expand el => el.span

/-- The span stored at the root of a pattern node. -/
def pspan : Pattern → Span
  | .int s => s
  | .tag s _ => s
  | .id s => s
  | .ignore s => s
  | .tuple s _ => s
  | .paren s _ => s
  | .app s _ _ _ => s
  | .collect el => el.span

/-- The span stored at the root of a statement (a bare expression
statement has its expression's span). -/
def stspan : Statement → Span
  | .assign s _ _ => s
  | .expr e => espan e

open Nom

/-- parse.rs `parse_int`: digits, then `_`-joined digit groups, then the
committed lookahead that the next significant character is not `_`
(`cut(not(pair(multispace0, tag("_"))))`). -/
def parse_int (src : Src) : Parser Span := fun s =>
  bindR (digit1 src s) fun s1 _ =>
    bindR (many0 (src.length + 1) (pair (tag ['_'] src) (digit1 src)) s1) fun s2 _ =>
      bindR (cut (pnot (pair (multispace0 src) (tag ['_'] src))) s2) fun s3 _ =>
        .ok s3 (Span.between s s3)

/-- parse.rs `parse_kw`: one of the reserved words `case`, `of`, `do`,
`end` as a literal prefix match. -/
def parse_kw (src : Src) : Parser Unit :=
  value () (alt4 (tag ['c', 'a', 's', 'e'] src) (tag ['o', 'f'] src)
    (tag ['d', 'o'] src) (tag ['e', 'n', 'd'] src))

/-- parse.rs `parse_id`: keyword guard by negative lookahead, one
alphabetic run, then `_`-joined alphanumeric runs. -/
def parse_id (src : Src) : Parser Span := fun s =>
  bindR (pnot (parse_kw src) s) fun s1 _ =>
    bindR (alpha1 src s1) fun s2 _ =>
      bindR (many0 (src.length + 1) (pair (tag ['_'] src) (alphanumeric1 src)) s2)
        fun s3 _ => .ok s3 (Span.between s s3)

/-- parse.rs `parse_tag`: `:`, optional whitespace, an identifier; returns
the full span and the identifier's span. -/
def parse_tag (src : Src) : Parser (Span × Span) := fun s =>
  bindR (preceded (pair (tag [':'] src) (multispace0 src)) (parse_id src) s)
    fun s1 sp => .ok s1 (Span.between s s1, sp)

/-- parse.rs `parse_ellipsis`: `..`, optional whitespace, an optional
identifier naming the collected/spread remainder. -/
def parse_ellipsis (src : Src) : Parser Ellipsis := fun s =>
  bindR (preceded (tag ['.', '.'] src) (preceded (multispace0 src)
      (opt (parse_id src))) s)
    fun s1 i => .ok s1 ⟨Span.between s s1, i⟩

/-- parse.rs `eint`. -/
def eint (src : Src) : Parser Expr := map Expr.int (parse_int src)

/-- parse.rs `etag`. -/
def etag (src : Src) : Parser Expr :=
  map (fun p => Expr.tag p.1 p.2) (parse_tag src)

/-- parse.rs `eid`. -/
def eid (src : Src) : Parser Expr := map Expr.id (parse_id src)

/-- parse.rs `eunit`: `(` whitespace `)`, the empty tuple. -/
def eunit (src : Src) : Parser Expr := fun s =>
  bindR (pair (tag ['('] src) (pair (multispace0 src) (tag [')'] src)) s)
    fun s1 _ => .ok s1 (Expr.tuple (Span.between s s1) [])

/-- parse.rs `pint`. -/
def pint (src : Src) : Parser Pattern := map Pattern.int (parse_int src)

/-- parse.rs `pid`. -/
def pid (src : Src) : Parser Pattern := map Pattern.id (parse_id src)

/-- parse.rs `ptag`. -/
def ptag (src : Src) : Parser Pattern :=
  map (fun p => Pattern.tag p.1 p.2) (parse_tag src)

/-- parse.rs `pignore`: `_` with an optional trailing identifier. -/
def pignore (src : Src) : Parser Pattern := fun s =>
  bindR (pair (tag ['_'] src) (opt (parse_id src)) s) fun s1 _ =>
    .ok s1 (Pattern.ignore (Span.between s s1))

/-- parse.rs `punit`: `(` whitespace `)`, the empty tuple pattern. -/
def punit (src : Src) : Parser Pattern := fun s =>
  bindR (pair (tag ['('] src) (pair (multispace0 src) (tag [')'] src)) s)
    fun s1 _ => .ok s1 (Pattern.tuple (Span.between s s1) [])

/-- The `multispace0 , multispace0` separator used between list items. -/
def sepComma (src : Src) : Parser Unit :=
  preceded (multispace0 src) (terminated (tag [','] src) (multispace0 src))

mutual
/-- parse.rs `pparen`: `(` ws pattern ws `)`. -/
def pparen (src : Src) : Nat → Parser Pattern
  | 0 => fun s => .soft s
  | n + 1 => fun s =>
    bindR (delimited (pair (tag ['('] src) (multispace0 src)) (pattern src n)
        (pair (multispace0 src) (tag [')'] src)) s)
      fun s1 inner => .ok s1 (Pattern.paren (Span.between s s1) inner)

/-- parse.rs `patom`: integer, identifier, tag, wildcard, unit or
parenthesized pattern, in that order. -/
def patom (src : Src) : Nat → Parser Pattern
  | 0 => fun s => .soft s
  | n + 1 =>
    alt6 (pint src) (pid src) (ptag src) (pignore src) (punit src) (pparen src n)

/-- parse.rs `pitem`: an ellipsis-collect marker or a `pother` pattern. -/
def pitem (src : Src) : Nat → Parser Pattern
  | 0 => fun s => .soft s
  | n + 1 => alt2 (map Pattern.collect (parse_ellipsis src)) (pother src n)

/-- The argument-list sub-rule of parse.rs `papp`: `(` ws
`separated_list0(ws , ws, pitem)` ws `)`, returning its span and items. -/
def pargs (src : Src) : Nat → Parser (Span × List Pattern)
  | 0 => fun s => .soft s
  | n + 1 => fun s =>
    bindR (delimited (pair (tag ['('] src) (multispace0 src))
        (separatedList0 n (sepComma src) (pitem src n))
        (pair (multispace0 src) (tag [')'] src)) s)
      fun s1 xs => .ok s1 (Span.between s s1, xs)

/-- parse.rs `papp`: an atom then zero or more argument lists (no
whitespace before a list), folded left-associatively with the span grown
from the chain's start to each list's end. -/
def papp (src : Src) : Nat → Parser Pattern
  | 0 => fun s => .soft s
  | n + 1 => fun s =>
    bindR (pair (patom src n) (many0 n (pargs src n)) s) fun s1 fxs =>
      .ok s1 (fxs.2.foldl
        (fun f al => Pattern.app (Span.to s al.1) f al.1 al.2) fxs.1)

/-- parse.rs `pother`: `alt((papp,))`, i.e. just `papp`. -/
def pother (src : Src) : Nat → Parser Pattern
  | 0 => fun s => .soft s
  | n + 1 => papp src n

/-- parse.rs `ptuple`: one or more `pitem ws , ws` then an optional final
`pitem` (with no whitespace rule of its own before it). -/
def ptuple (src : Src) : Nat → Parser Pattern
  | 0 => fun s => .soft s
  | n + 1 => fun s =>
    bindR (pair (many1 n (terminated (pitem src n) (sepComma src)))
        (opt (pitem src n)) s)
      fun s1 xs =>
        .ok s1 (Pattern.tuple (Span.between s s1) (xs.1 ++ xs.2.toList))

/-- parse.rs `pattern`: tuple pattern first, else `pother`. -/
def pattern (src : Src) : Nat → Parser Pattern
  | 0 => fun s => .soft s
  | n + 1 => alt2 (ptuple src n) (pother src n)
end

mutual
/-- parse.rs `eparen`: `(` ws expr ws `)`. -/
def eparen (src : Src) : Nat → Parser Expr
  | 0 => fun s => .soft s
  | n + 1 => fun s =>
    bindR (delimited (pair (tag ['('] src) (multispace0 src)) (expr src n)
        (pair (multispace0 src) (tag [')'] src)) s)
      fun s1 inner => .ok s1 (Expr.paren (Span.between s s1) inner)

/-- parse.rs `eatom`: unit, identifier, tag, integer or parenthesized
expression, in that order. -/
def eatom (src : Src) : Nat → Parser Expr
  | 0 => fun s => .soft s
  | n + 1 => alt5 (eunit src) (eid src) (etag src) (eint src) (eparen src n)

/-- parse.rs `eitem`: an ellipsis-expand marker or an `eother`
expression. -/
def eitem (src : Src) : Nat → Parser Expr
  | 0 => fun s => .soft s
  | n + 1 => alt2 (map Expr.expand (parse_ellipsis src)) (eother src n)

/-- The `args` sub-rule of parse.rs `eapp`: `(` ws `(eitem ws , ws)*`
`eitem?` ws `)`, returning its span and the collected items. -/
def eargs (src : Src) : Nat → Parser (Span × List Expr)
  | 0 => fun s => .soft s
  | n + 1 => fun s =>
    bindR (delimited (pair (tag ['('] src) (multispace0 src))
        (pair (many0 n (terminated (eitem src n) (sepComma src)))
          (opt (eitem src n)))
        (pair (multispace0 src) (tag [')'] src)) s)
      fun s1 xs => .ok s1 (Span.between s s1, xs.1 ++ xs.2.toList)

/-- parse.rs `eapp`: an atom then zero or more argument lists, each
allowed to follow whitespace, folded left-associatively with the span
grown from the chain's start to each list's end. -/
def eapp (src : Src) : Nat → Parser Expr
  | 0 => fun s => .soft s
  | n + 1 => fun s =>
    bindR (pair (eatom src n)
        (many0 n (preceded (multispace0 src) (eargs src n))) s)
      fun s1 fxs =>
        .ok s1 (fxs.2.foldl
          (fun f al => Expr.app (Span.to s al.1) f al.1 al.2) fxs.1)

/-- parse.rs `etuple`: one or more `eitem ws , ws` then an optional final
`ws eitem`. -/
def etuple (src : Src) : Nat → Parser Expr
  | 0 => fun s => .soft s
  | n + 1 => fun s =>
    bindR (pair (many1 n (terminated (eitem src n) (sepComma src)))
        (opt (preceded (multispace0 src) (eitem src n))) s)
      fun s1 xs => .ok s1 (Expr.tuple (Span.between s s1) (xs.1 ++ xs.2.toList))

/-- parse.rs `arm`: `of` ws pattern ws `=` ws expr. -/
def arm (src : Src) : Nat → Parser Arm
  | 0 => fun s => .soft s
  | n + 1 => fun s =>
    bindR (pair (preceded (terminated (tag ['o', 'f'] src) (multispace0 src))
          (pattern src n))
        (preceded (preceded (multispace0 src)
            (terminated (tag ['='] src) (multispace0 src))) (expr src n)) s)
      fun s1 pe => .ok s1 (Arm.mk (Span.between s s1) pe.1 pe.2)

/-- parse.rs `ecase`: `case` ws expr, zero or more `ws arm`, ws `end`. -/
def ecase (src : Src) : Nat → Parser Expr
  | 0 => fun s => .soft s
  | n + 1 => fun s =>
    bindR (pair
        (preceded (pair (tag ['c', 'a', 's', 'e'] src) (multispace0 src))
          (expr src n))
        (terminated (many0 n (preceded (multispace0 src) (arm src n)))
          (pair (multispace0 src) (tag ['e', 'n', 'd'] src))) s)
      fun s1 sa => .ok s1 (Expr.caseE (Span.between s s1) sa.1 sa.2)

/-- parse.rs `assign`: pattern ws `=` ws expr. -/
def assign (src : Src) : Nat → Parser Statement
  | 0 => fun s => .soft s
  | n + 1 => fun s =>
    bindR (pair (pattern src n)
        (preceded (preceded (multispace0 src)
            (terminated (tag ['='] src) (multispace0 src))) (expr src n)) s)
      fun s1 pe => .ok s1 (Statement.assign (Span.between s s1) pe.1 pe.2)

/-- parse.rs `statement`: an assignment, else a bare expression. -/
def statement (src : Src) : Nat → Parser Statement
  | 0 => fun s => .soft s
  | n + 1 => alt2 (assign src n) (map Statement.expr (expr src n))

/-- parse.rs `edo`: `{` ws, statements each ended by ws `;` ws, an
optional trailing expression, ws `}`. -/
def edo (src : Src) : Nat → Parser Expr
  | 0 => fun s => .soft s
  | n + 1 => fun s =>
    bindR (delimited (pair (tag ['{'] src) (multispace0 src))
        (pair (many0 n (terminated (statement src n)
            (preceded (multispace0 src)
              (terminated (tag [';'] src) (multispace0 src)))))
          (opt (expr src n)))
        (pair (multispace0 src) (tag ['}'] src)) s)
      fun s1 sr => .ok s1 (Expr.doE (Span.between s s1) sr.1 sr.2)

/-- parse.rs `efn`: `param fn | param ws -> ws expr`, with the whole
consumed range as the node's span. -/
def efn (src : Src) : Nat → Parser Expr
  | 0 => fun s => .soft s
  | n + 1 =>
    map (fun x => Expr.fn x.1 x.2.1 x.2.2)
      (consumed (alt2
        (pair (parse_id src) (preceded (multispace0 src) (efn src n)))
        (pair (parse_id src)
          (preceded (preceded (multispace0 src)
              (terminated (tag ['-', '>'] src) (multispace0 src)))
            (expr src n)))))

/-- parse.rs `eother`: application chain, `case`, or block. -/
def eother (src : Src) : Nat → Parser Expr
  | 0 => fun s => .soft s
  | n + 1 => alt3 (eapp src n) (ecase src n) (edo src n)

/-- parse.rs `expr`, the top-level expression entry point: function
literal, then tuple, then `eother`. -/
def expr (src : Src) : Nat → Parser Expr
  | 0 => fun s => .soft s
  | n + 1 => alt3 (efn src n) (etuple src n) (eother src n)
end

/-- Containment for an ellipsis: a bound name's span lies inside the
marker's span. -/
def elWF (el : Ellipsis) : Prop :=
  match el.id with
  | some ns => Span.covers el.span ns
  | none => True

mutual
/-- The containment invariant on an expression tree: every node's span
fully contains the span of each child and span-carrying payload. -/
def eWF : Expr → Prop
  | .int _ => True
  | .tag s ns => Span.covers s ns
  | .id _ => True
  | .tuple s items => eListWF s items
  | .paren s inner => Span.covers s (espan inner) ∧ eWF inner
  | .fn s param body => Span.covers s param ∧ Span.covers s (espan body) ∧ eWF body
  | .app s f asp args =>
    Span.covers s (espan f) ∧ eWF f ∧ Span.covers s asp ∧ eListWF s args
  | .caseE s subj arms => Span.covers s (espan subj) ∧ eWF subj ∧ armsWF s arms
  | .doE s stmts ret => stmtsWF s stmts ∧ optEWF s ret
  | .expand el => elWF el

def eListWF (s : Span) : List Expr → Prop
  | [] => True
  | e :: es => (Span.covers s (espan e) ∧ eWF e) ∧ eListWF s es

def optEWF (s : Span) : Option Expr → Prop
  | none => True
  | some e => Span.covers s (espan e) ∧ eWF e

def armsWF (s : Span) : List Arm → Prop
  | [] => True
  | a :: as => (Span.covers s a.span ∧ armWF a) ∧ armsWF s as

/-- An arm's span contains its pattern's and its expression's spans. -/
def armWF : Arm → Prop
  | .mk s p e => Span.covers s (pspan p) ∧ pWF p ∧ Span.covers s (espan e) ∧ eWF e

def stmtsWF (s : Span) : List Statement → Prop
  | [] => True
  | st :: sts => (Span.covers s (stspan st) ∧ stWF st) ∧ stmtsWF s sts

def stWF : Statement → Prop
  | .assign s p e => Span.covers s (pspan p) ∧ pWF p ∧ Span.covers s (espan e) ∧ eWF e
  | .expr e => eWF e

/-- The containment invariant on a pattern tree. -/
def pWF : Pattern → Prop
  | .int _ => True
  | .tag s ns => Span.covers s ns
  | .id _ => True
  | .ignore _ => True
  | .tuple s items => pListWF s items
  | .paren s inner => Span.covers s (pspan inner) ∧ pWF inner
  | .app s f asp args =>
    Span.covers s (pspan f) ∧ pWF f ∧ Span.covers s asp ∧ pListWF s args
  | .collect el => elWF el

def pListWF (s : Span) : List Pattern → Prop
  | [] => True
  | p :: ps => (Span.covers s (pspan p) ∧ pWF p) ∧ pListWF s ps
end

/-- The left-fold shape of an application chain starting at offset
`start`: every `app` node along the callee spine has a span running from
`start` to the end of that node's own argument-list span. -/
def appSpine (start : Nat) : Expr → Prop
  | .app s f asp _ => s.start = start ∧ s.stop = asp.stop ∧ appSpine start f
  | _ => True

/-- The same left-fold shape for pattern application chains. -/
def pappSpine (start : Nat) : Pattern → Prop
  | .app s f asp _ => s.start = start ∧ s.stop = asp.stop ∧ pappSpine start f
  | _ => True

/-- The curried-function shape: every `fn` level's span runs from its own
parameter's start to the overall end `stop`. -/
def fnLevels (stop : Nat) : Expr → Prop
  | .fn s param body => s.start = param.start ∧ s.stop = stop ∧ fnLevels stop body
  | _ => True

/-- Whether an expression's root node is an application. -/
def isEApp : Expr → Prop
  | .app _ _ _ _ => True
  | _ => False

/-- Whether a pattern's root node is an application. -/
def isPApp : Pattern → Prop
  | .app _ _ _ _ => True
  | _ => False

/-- Whether an expression's root node is a function literal. -/
def isEFn : Expr → Prop
  | .fn _ _ _ => True
  | _ => False

mutual
/-- A pattern and an expression with identical shape and identical spans
(on the constructors shared by both grammars). -/
inductive SimPE : Pattern → Expr → Prop where
  | int (s : Span) : SimPE (.int s) (.int s)
  | tag (s ns : Span) : SimPE (.tag s ns) (.tag s ns)
  | id (s : Span) : SimPE (.id s) (.id s)
  | app {f : Pattern} {g : Expr} {xs : List Pattern} {ys : List Expr}
      (s asp : Span) : SimPE f g → SimListPE xs ys →
      SimPE (.app s f asp xs) (.app s g asp ys)

inductive SimListPE : List Pattern → List Expr → Prop where
  | nil : SimListPE [] []
  | cons {p : Pattern} {e : Expr} {ps : List Pattern} {es : List Expr} :
      SimPE p e → SimListPE ps es → SimListPE (p :: ps) (e :: es)
end

/-- The positions traversed by a repetition: each element was produced
going from one position to the next. -/
inductive RunList {α : Type} (Q : Nat → Nat → α → Prop) :
    Nat → Nat → List α → Prop where
  | nil (i : Nat) : RunList Q i i []
  | cons {i k j : Nat} {a : α} {as : List α} :
      Q i k a → RunList Q k j as → RunList Q i j (a :: as)

/-- The simultaneous induction hypothesis at fuel `n`: every grammar rule,
when it succeeds, moved the cursor forward, stamped the consumed range
`[i, j)` as the resulting node's span (span-consumption exactness), and
produced a tree satisfying the containment invariant. -/
structure Invs (src : Src) (n : Nat) : Prop where
  pparenI : ∀ i j p, pparen src n i = .ok j p → i ≤ j ∧ pspan p = ⟨i, j⟩ ∧ pWF p
  patomI : ∀ i j p, patom src n i = .ok j p → i ≤ j ∧ pspan p = ⟨i, j⟩ ∧ pWF p
  pitemI : ∀ i j p, pitem src n i = .ok j p → i ≤ j ∧ pspan p = ⟨i, j⟩ ∧ pWF p
  pargsI : ∀ i j v, pargs src n i = .ok j v → i ≤ j ∧ v.1 = ⟨i, j⟩ ∧
    ∀ p ∈ v.2, Span.covers v.1 (pspan p) ∧ pWF p
  pappI : ∀ i j p, papp src n i = .ok j p → i ≤ j ∧ pspan p = ⟨i, j⟩ ∧ pWF p
  potherI : ∀ i j p, pother src n i = .ok j p → i ≤ j ∧ pspan p = ⟨i, j⟩ ∧ pWF p
  ptupleI : ∀ i j p, ptuple src n i = .ok j p → i ≤ j ∧ pspan p = ⟨i, j⟩ ∧ pWF p
  patternI : ∀ i j p, pattern src n i = .ok j p → i ≤ j ∧ pspan p = ⟨i, j⟩ ∧ pWF p
  eparenI : ∀ i j e, eparen src n i = .ok j e → i ≤ j ∧ espan e = ⟨i, j⟩ ∧ eWF e
  eatomI : ∀ i j e, eatom src n i = .ok j e → i ≤ j ∧ espan e = ⟨i, j⟩ ∧ eWF e
  eitemI : ∀ i j e, eitem src n i = .ok j e → i ≤ j ∧ espan e = ⟨i, j⟩ ∧ eWF e
  eargsI : ∀ i j v, eargs src n i = .ok j v → i ≤ j ∧ v.1 = ⟨i, j⟩ ∧
    ∀ e ∈ v.2, Span.covers v.1 (espan e) ∧ eWF e
  eappI : ∀ i j e, eapp src n i = .ok j e → i ≤ j ∧ espan e = ⟨i, j⟩ ∧ eWF e
  etupleI : ∀ i j e, etuple src n i = .ok j e → i ≤ j ∧ espan e = ⟨i, j⟩ ∧ eWF e
  armI : ∀ i j a, arm src n i = .ok j a → i ≤ j ∧ a.span = ⟨i, j⟩ ∧ armWF a
  ecaseI : ∀ i j e, ecase src n i = .ok j e → i ≤ j ∧ espan e = ⟨i, j⟩ ∧ eWF e
  assignI : ∀ i j st, assign src n i = .ok j st →
    i ≤ j ∧ stspan st = ⟨i, j⟩ ∧ stWF st
  statementI : ∀ i j st, statement src n i = .ok j st →
    i ≤ j ∧ stspan st = ⟨i, j⟩ ∧ stWF st
  edoI : ∀ i j e, edo src n i = .ok j e → i ≤ j ∧ espan e = ⟨i, j⟩ ∧ eWF e
  efnI : ∀ i j e, efn src n i = .ok j e → i ≤ j ∧ espan e = ⟨i, j⟩ ∧ eWF e
  eotherI : ∀ i j e, eother src n i = .ok j e → i ≤ j ∧ espan e = ⟨i, j⟩ ∧ eWF e
  exprI : ∀ i j e, expr src n i = .ok j e → i ≤ j ∧ espan e = ⟨i, j⟩ ∧ eWF e

/-- One of the four reserved keywords is a literal prefix of `l`. -/
def kwPrefix (l : List Char) : Bool :=
  ['c', 'a', 's', 'e'].isPrefixOf l || ['o', 'f'].isPrefixOf l ||
    ['d', 'o'].isPrefixOf l || ['e', 'n', 'd'].isPrefixOf l

/-- `_`-joined digit groups appended before `rest`:
`undTail [g1, g2] rest = '_' :: g1 ++ '_' :: g2 ++ rest`. -/
def undTail (gs : List (List Char)) (rest : List Char) : List Char :=
  gs.foldr (fun g acc => '_' :: (g ++ acc)) rest

/-- Every character of `w` is whitespace. -/
def allWS (w : List Char) : Prop := ∀ c ∈ w, c.isWhitespace = true

mutual
/-- Erase every span of an expression tree, leaving only its shape. -/
def wipeE : Expr → Expr
  | .int _ => .int ⟨0, 0⟩
  | .tag _ _ => .tag ⟨0, 0⟩ ⟨0, 0⟩
  | .id _ => .id ⟨0, 0⟩
  | .tuple _ items => .tuple ⟨0, 0⟩ (wipeEList items)
  | .paren _ inner => .paren ⟨0, 0⟩ (wipeE inner)
  | .fn _ _ body => .fn ⟨0, 0⟩ ⟨0, 0⟩ (wipeE body)
  | .app _ f _ args => .app ⟨0, 0⟩ (wipeE f) ⟨0, 0⟩ (wipeEList args)
  | .caseE _ subj arms => .caseE ⟨0, 0⟩ (wipeE subj) (wipeArms arms)
  | .doE _ stmts ret => .doE ⟨0, 0⟩ (wipeStmts stmts) (wipeOptE ret)
  | .expand el => .expand ⟨⟨0, 0⟩, el.id.map fun _ => ⟨0, 0⟩⟩

def wipeEList : List Expr → List Expr
  | [] => []
  | e :: es => wipeE e :: wipeEList es

def wipeOptE : Option Expr → Option Expr
  | none => none
  | some e => some (wipeE e)

def wipeArms : List Arm → List Arm
  | [] => []
  | .mk _ p e :: as => .mk ⟨0, 0⟩ (wipeP p) (wipeE e) :: wipeArms as

def wipeStmts : List Statement → List Statement
  | [] => []
  | .assign _ p e :: sts => .assign ⟨0, 0⟩ (wipeP p) (wipeE e) :: wipeStmts sts
  | .expr e :: sts => .expr (wipeE e) :: wipeStmts sts

/-- Erase every span of a pattern tree, leaving only its shape. -/
def wipeP : Pattern → Pattern
  | .int _ => .int ⟨0, 0⟩
  | .tag _ _ => .tag ⟨0, 0⟩ ⟨0, 0⟩
  | .id _ => .id ⟨0, 0⟩
  | .ignore _ => .ignore ⟨0, 0⟩
  | .tuple _ items => .tuple ⟨0, 0⟩ (wipePList items)
  | .paren _ inner => .paren ⟨0, 0⟩ (wipeP inner)
  | .app _ f _ args => .app ⟨0, 0⟩ (wipeP f) ⟨0, 0⟩ (wipePList args)
  | .collect el => .collect ⟨⟨0, 0⟩, el.id.map fun _ => ⟨0, 0⟩⟩

def wipePList : List Pattern → List Pattern
  | [] => []
  | p :: ps => wipeP p :: wipePList ps
end

namespace Nom

@[simp] theorem bindR_at_ok {α β : Type} (j : Nat) (a : α) (f : Nat → α → PRes β) :
    bindR (.ok j a) f = f j a := rfl

@[simp] theorem bindR_at_soft {α β : Type} (j : Nat) (f : Nat → α → PRes β) :
    bindR (.soft j) f = (.soft j : PRes β) := rfl

@[simp] theorem bindR_at_fatal {α β : Type} (j : Nat) (f : Nat → α → PRes β) :
    bindR (.fatal j) f = (.fatal j : PRes β) := rfl

theorem bindR_ok {α β : Type} {r : PRes α} {f : Nat → α → PRes β} {k : Nat}
    {b : β} (h : bindR r f = .ok k b) : ∃ j a, r = .ok j a ∧ f j a = .ok k b := by
  cases r with
  | ok j a => exact ⟨j, a, rfl, h⟩
  | soft j => simp at h
  | fatal j => simp at h

theorem map_ok {α β : Type} {f : α → β} {p : Parser α} {i j : Nat} {b : β}
    (h : map f p i = .ok j b) : ∃ a, p i = .ok j a ∧ b = f a := by
  unfold map at h
  obtain ⟨j', a, hp, hv⟩ := bindR_ok h
  simp only [PRes.ok.injEq] at hv
  exact ⟨a, hv.1 ▸ hp, hv.2.symm⟩

theorem pair_ok {α β : Type} {p : Parser α} {q : Parser β} {i k : Nat}
    {v : α × β} (h : pair p q i = .ok k v) :
    ∃ j a b, v = (a, b) ∧ p i = .ok j a ∧ q j = .ok k b := by
  unfold pair at h
  obtain ⟨j, a, hp, h2⟩ := bindR_ok h
  obtain ⟨k', b, hq, hv⟩ := bindR_ok h2
  simp only [PRes.ok.injEq] at hv
  exact ⟨j, a, b, hv.2.symm, hp, hv.1 ▸ hq⟩

theorem preceded_ok {α β : Type} {p : Parser α} {q : Parser β} {i k : Nat}
    {b : β} (h : preceded p q i = .ok k b) :
    ∃ j a, p i = .ok j a ∧ q j = .ok k b := by
  unfold preceded at h
  obtain ⟨j, a, hp, h2⟩ := bindR_ok h
  exact ⟨j, a, hp, h2⟩

theorem terminated_ok {α β : Type} {p : Parser α} {q : Parser β} {i k : Nat}
    {a : α} (h : terminated p q i = .ok k a) :
    ∃ j c, p i = .ok j a ∧ q j = .ok k c := by
  unfold terminated at h
  obtain ⟨j, a', hp, h2⟩ := bindR_ok h
  obtain ⟨k', c, hq, hv⟩ := bindR_ok h2
  simp only [PRes.ok.injEq] at hv
  exact ⟨j, c, hv.2 ▸ hp, hv.1 ▸ hq⟩

theorem delimited_ok {α β γ : Type} {p : Parser α} {q : Parser β} {r : Parser γ}
    {i l : Nat} {b : β} (h : delimited p q r i = .ok l b) :
    ∃ j a k c, p i = .ok j a ∧ q j = .ok k b ∧ r k = .ok l c := by
  unfold delimited at h
  obtain ⟨j, a, hp, h2⟩ := bindR_ok h
  obtain ⟨k, b', hq, h3⟩ := bindR_ok h2
  obtain ⟨l', c, hr, hv⟩ := bindR_ok h3
  simp only [PRes.ok.injEq] at hv
  exact ⟨j, a, k, c, hp, hv.2 ▸ hq, hv.1 ▸ hr⟩

theorem alt2_ok {α : Type} {p q : Parser α} {i j : Nat} {v : α}
    (h : alt2 p q i = .ok j v) :
    p i = .ok j v ∨ ∃ e, p i = .soft e ∧ q i = .ok j v := by
  unfold alt2 at h
  cases hp : p i with
  | ok j' a => rw [hp] at h; exact .inl h
  | soft e => rw [hp] at h; exact .inr ⟨e, rfl, h⟩
  | fatal e => rw [hp] at h; exact PRes.noConfusion h

theorem alt3_ok {α : Type} {p q r : Parser α} {i j : Nat} {v : α}
    (h : alt3 p q r i = .ok j v) :
    p i = .ok j v ∨ q i = .ok j v ∨ r i = .ok j v := by
  rcases alt2_ok h with h1 | ⟨_, _, h2⟩
  · exact .inl h1
  · rcases alt2_ok h2 with h3 | ⟨_, _, h4⟩
    · exact .inr (.inl h3)
    · exact .inr (.inr h4)

theorem alt4_ok {α : Type} {p q r s : Parser α} {i j : Nat} {v : α}
    (h : alt4 p q r s i = .ok j v) :
    p i = .ok j v ∨ q i = .ok j v ∨ r i = .ok j v ∨ s i = .ok j v := by
  rcases alt2_ok h with h1 | ⟨_, _, h2⟩
  · exact .inl h1
  · rcases alt3_ok h2 with h3 | h4 | h5
    · exact .inr (.inl h3)
    · exact .inr (.inr (.inl h4))
    · exact .inr (.inr (.inr h5))

theorem alt5_ok {α : Type} {p q r s t : Parser α} {i j : Nat} {v : α}
    (h : alt5 p q r s t i = .ok j v) :
    p i = .ok j v ∨ q i = .ok j v ∨ r i = .ok j v ∨ s i = .ok j v ∨
      t i = .ok j v := by
  rcases alt2_ok h with h1 | ⟨_, _, h2⟩
  · exact .inl h1
  · rcases alt4_ok h2 with h3 | h4 | h5 | h6
    · exact .inr (.inl h3)
    · exact .inr (.inr (.inl h4))
    · exact .inr (.inr (.inr (.inl h5)))
    · exact .inr (.inr (.inr (.inr h6)))

theorem alt6_ok {α : Type} {p q r s t u : Parser α} {i j : Nat} {v : α}
    (h : alt6 p q r s t u i = .ok j v) :
    p i = .ok j v ∨ q i = .ok j v ∨ r i = .ok j v ∨ s i = .ok j v ∨
      t i = .ok j v ∨ u i = .ok j v := by
  rcases alt2_ok h with h1 | ⟨_, _, h2⟩
  · exact .inl h1
  · rcases alt5_ok h2 with h3 | h4 | h5 | h6 | h7
    · exact .inr (.inl h3)
    · exact .inr (.inr (.inl h4))
    · exact .inr (.inr (.inr (.inl h5)))
    · exact .inr (.inr (.inr (.inr (.inl h6))))
    · exact .inr (.inr (.inr (.inr (.inr h7))))

theorem cut_ok {α : Type} {p : Parser α} {i j : Nat} {v : α}
    (h : cut p i = .ok j v) : p i = .ok j v := by
  unfold cut at h
  cases hp : p i with
  | ok j' a => rw [hp] at h; exact h
  | soft e => rw [hp] at h; exact PRes.noConfusion h
  | fatal e => rw [hp] at h; exact PRes.noConfusion h

theorem pnot_ok {α : Type} {p : Parser α} {i j : Nat} {v : Unit}
    (h : pnot p i = .ok j v) : j = i := by
  unfold pnot at h
  cases hp : p i with
  | ok j' a => rw [hp] at h; exact PRes.noConfusion h
  | soft e =>
    rw [hp] at h
    have h' : PRes.ok i () = PRes.ok j v := h
    injection h' with h1 h2
    exact h1.symm
  | fatal e => rw [hp] at h; exact PRes.noConfusion h

theorem opt_ok {α : Type} {p : Parser α} {i j : Nat} {v : Option α}
    (h : opt p i = .ok j v) :
    (j = i ∧ v = none) ∨ ∃ a, v = some a ∧ p i = .ok j a := by
  unfold opt at h
  cases hp : p i with
  | ok j' a =>
    rw [hp] at h
    have h' : PRes.ok j' (some a) = PRes.ok j v := h
    injection h' with h1 h2
    exact .inr ⟨a, h2.symm, by rw [h1]⟩
  | soft e =>
    rw [hp] at h
    have h' : PRes.ok i (none : Option α) = PRes.ok j v := h
    injection h' with h1 h2
    exact .inl ⟨h1.symm, h2.symm⟩
  | fatal e => rw [hp] at h; exact PRes.noConfusion h

theorem consumed_ok {α : Type} {p : Parser α} {i j : Nat} {v : Span × α}
    (h : consumed p i = .ok j v) :
    ∃ a, v = (⟨i, j⟩, a) ∧ p i = .ok j a := by
  unfold consumed at h
  obtain ⟨j', a, hp, hv⟩ := bindR_ok h
  simp only [PRes.ok.injEq] at hv
  obtain ⟨rfl, rfl⟩ := hv
  exact ⟨a, rfl, hp⟩

theorem tag_ok {src : Src} {t : List Char} {i j : Nat} {v : Unit}
    (h : tag t src i = .ok j v) :
    j = i + t.length ∧ t.isPrefixOf (src.drop i) = true := by
  unfold tag at h
  split at h
  · simp only [PRes.ok.injEq] at h
    exact ⟨h.1.symm, by assumption⟩
  · simp at h

theorem charClass1_ok {f : Char → Bool} {src : Src} {i j : Nat} {v : Unit}
    (h : charClass1 f src i = .ok j v) :
    j = i + spanLen f (src.drop i) ∧ spanLen f (src.drop i) ≠ 0 := by
  unfold charClass1 at h
  split at h
  · simp at h
  · simp only [PRes.ok.injEq] at h
    exact ⟨h.1.symm, by assumption⟩

theorem multispace0_ok {src : Src} {i j : Nat} {v : Unit}
    (h : multispace0 src i = .ok j v) :
    j = i + spanLen Char.isWhitespace (src.drop i) := by
  unfold multispace0 at h
  simp only [PRes.ok.injEq] at h
  exact h.1.symm

theorem many0_run {α : Type} {p : Parser α} {Q : Nat → Nat → α → Prop}
    (hp : ∀ i j a, p i = .ok j a → Q i j a) :
    ∀ (fuel i j : Nat) (as : List α),
      many0 fuel p i = .ok j as → RunList Q i j as := by
  intro fuel
  induction fuel with
  | zero => intro i j as h; simp [many0] at h
  | succ n ih =>
    intro i j as h
    cases hp1 : p i with
    | soft e =>
      simp only [many0, hp1, PRes.ok.injEq] at h
      obtain ⟨rfl, rfl⟩ := h
      exact .nil i
    | fatal e => simp [many0, hp1] at h
    | ok k a =>
      simp only [many0, hp1] at h
      split at h
      · simp at h
      · obtain ⟨j', as', hrec, hv⟩ := bindR_ok h
        simp only [PRes.ok.injEq] at hv
        obtain ⟨rfl, rfl⟩ := hv
        exact .cons (hp i k a hp1) (ih k j' as' hrec)

theorem many1_run {α : Type} {p : Parser α} {Q : Nat → Nat → α → Prop}
    (hp : ∀ i j a, p i = .ok j a → Q i j a) {fuel i j : Nat} {as : List α}
    (h : many1 fuel p i = .ok j as) : RunList Q i j as ∧ as ≠ [] := by
  unfold many1 at h
  obtain ⟨k, a, hp1, h2⟩ := bindR_ok h
  obtain ⟨j', as', hrec, hv⟩ := bindR_ok h2
  simp only [PRes.ok.injEq] at hv
  obtain ⟨rfl, rfl⟩ := hv
  exact ⟨.cons (hp i k a hp1) (many0_run hp fuel k j' as' hrec), by simp⟩

theorem sepLoop_run {α β : Type} {sep : Parser α} {p : Parser β}
    {Q : Nat → Nat → β → Prop}
    (hsep : ∀ i j a, sep i = .ok j a → i ≤ j)
    (hp : ∀ i j a, p i = .ok j a → Q i j a) :
    ∀ (fuel i j : Nat) (as : List β),
      sepLoop fuel sep p i = .ok j as →
      RunList (fun k k' a => ∃ m, k ≤ m ∧ Q m k' a) i j as := by
  intro fuel
  induction fuel with
  | zero => intro i j as h; simp [sepLoop] at h
  | succ n ih =>
    intro i j as h
    cases hs : sep i with
    | soft e =>
      simp only [sepLoop, hs, PRes.ok.injEq] at h
      obtain ⟨rfl, rfl⟩ := h
      exact .nil i
    | fatal e => simp [sepLoop, hs] at h
    | ok s1 c =>
      simp only [sepLoop, hs] at h
      split at h
      · simp at h
      · cases hp1 : p s1 with
        | soft e =>
          rw [hp1] at h
          simp only [PRes.ok.injEq] at h
          obtain ⟨rfl, rfl⟩ := h
          exact .nil i
        | fatal e => rw [hp1] at h; simp at h
        | ok i2 a =>
          rw [hp1] at h
          obtain ⟨j', as', hrec, hv⟩ := bindR_ok h
          simp only [PRes.ok.injEq] at hv
          obtain ⟨rfl, rfl⟩ := hv
          exact .cons ⟨s1, hsep i s1 c hs, hp s1 i2 a hp1⟩ (ih i2 j' as' hrec)

theorem separatedList0_run {α β : Type} {sep : Parser α} {p : Parser β}
    {Q : Nat → Nat → β → Prop}
    (hsep : ∀ i j a, sep i = .ok j a → i ≤ j)
    (hp : ∀ i j a, p i = .ok j a → Q i j a) {fuel i j : Nat} {as : List β}
    (h : separatedList0 fuel sep p i = .ok j as) :
    RunList (fun k k' a => ∃ m, k ≤ m ∧ Q m k' a) i j as := by
  unfold separatedList0 at h
  cases hp1 : p i with
  | soft e =>
    rw [hp1] at h
    simp only [PRes.ok.injEq] at h
    obtain ⟨rfl, rfl⟩ := h
    exact .nil i
  | fatal e => rw [hp1] at h; simp at h
  | ok k a =>
    rw [hp1] at h
    obtain ⟨j', as', hrec, hv⟩ := bindR_ok h
    simp only [PRes.ok.injEq] at hv
    obtain ⟨rfl, rfl⟩ := hv
    exact .cons ⟨i, le_refl i, hp i k a hp1⟩ (sepLoop_run hsep hp fuel k j' as' hrec)

end Nom

theorem RunList.le {α : Type} {Q : Nat → Nat → α → Prop}
    (hQ : ∀ i j a, Q i j a → i ≤ j) :
    ∀ {i j : Nat} {as : List α}, RunList Q i j as → i ≤ j := by
  intro i j as h
  induction h with
  | nil => exact le_refl _
  | cons hq _ ih => exact le_trans (hQ _ _ _ hq) ih

theorem RunList.mem_bounds {α : Type} {Q : Nat → Nat → α → Prop}
    (hQ : ∀ i j a, Q i j a → i ≤ j) :
    ∀ {i j : Nat} {as : List α}, RunList Q i j as →
      ∀ a ∈ as, ∃ k k', i ≤ k ∧ Q k k' a ∧ k' ≤ j := by
  intro i j as h
  induction h with
  | nil => intro a ha; simp at ha
  | cons hq hrest ih =>
    intro a ha
    rcases List.mem_cons.mp ha with rfl | ha'
    · exact ⟨_, _, le_refl _, hq, RunList.le hQ hrest⟩
    · obtain ⟨k, k', hk, hq', hk'⟩ := ih a ha'
      exact ⟨k, k', le_trans (hQ _ _ _ hq) hk, hq', hk'⟩

namespace Nom

theorem tag_mono {src : Src} {t : List Char} {i j : Nat} {v : Unit}
    (h : tag t src i = .ok j v) : i ≤ j := by
  rcases tag_ok h with ⟨rfl, -⟩
  exact Nat.le_add_right _ _

theorem charClass1_mono {f : Char → Bool} {src : Src} {i j : Nat} {v : Unit}
    (h : charClass1 f src i = .ok j v) : i ≤ j := by
  rcases charClass1_ok h with ⟨rfl, -⟩
  exact Nat.le_add_right _ _

theorem digit1_mono {src : Src} {i j : Nat} {v : Unit}
    (h : digit1 src i = .ok j v) : i ≤ j := charClass1_mono h

theorem alpha1_mono {src : Src} {i j : Nat} {v : Unit}
    (h : alpha1 src i = .ok j v) : i ≤ j := charClass1_mono h

theorem alphanumeric1_mono {src : Src} {i j : Nat} {v : Unit}
    (h : alphanumeric1 src i = .ok j v) : i ≤ j := charClass1_mono h

theorem multispace0_mono {src : Src} {i j : Nat} {v : Unit}
    (h : multispace0 src i = .ok j v) : i ≤ j := by
  rw [multispace0_ok h]
  exact Nat.le_add_right _ _

theorem pair_mono {α β : Type} {p : Parser α} {q : Parser β}
    (hp : ∀ i j a, p i = .ok j a → i ≤ j) (hq : ∀ i j a, q i = .ok j a → i ≤ j)
    {i j : Nat} {v : α × β} (h : pair p q i = .ok j v) : i ≤ j := by
  obtain ⟨k, a, b, -, h1, h2⟩ := pair_ok h
  exact le_trans (hp _ _ _ h1) (hq _ _ _ h2)

theorem opt_mono {α : Type} {p : Parser α}
    (hp : ∀ i j a, p i = .ok j a → i ≤ j)
    {i j : Nat} {v : Option α} (h : opt p i = .ok j v) : i ≤ j := by
  rcases opt_ok h with ⟨rfl, -⟩ | ⟨a, -, h2⟩
  · exact le_refl _
  · exact hp _ _ _ h2

theorem many0_mono {α : Type} {p : Parser α}
    (hp : ∀ i j a, p i = .ok j a → i ≤ j)
    {fuel i j : Nat} {as : List α} (h : many0 fuel p i = .ok j as) : i ≤ j :=
  RunList.le (fun _ _ _ hh => hh)
    (many0_run (Q := fun i j _ => i ≤ j) (fun i j a ha => hp i j a ha) fuel i j as h)

end Nom

open Nom

theorem sepComma_mono {src : Src} {i j : Nat} {v : Unit}
    (h : sepComma src i = .ok j v) : i ≤ j := by
  obtain ⟨k, a, h1, h2⟩ := preceded_ok h
  obtain ⟨l, c, h3, h4⟩ := terminated_ok h2
  exact le_trans (multispace0_mono h1)
    (le_trans (tag_mono h3) (multispace0_mono h4))

theorem parse_int_inv {src : Src} {i j : Nat} {v : Span}
    (h : parse_int src i = .ok j v) : i ≤ j ∧ v = ⟨i, j⟩ := by
  unfold parse_int at h
  obtain ⟨s1, u1, h1, h⟩ := bindR_ok h
  obtain ⟨s2, u2, h2, h⟩ := bindR_ok h
  obtain ⟨s3, u3, h3, h⟩ := bindR_ok h
  injection h with hj hv
  have e1 := digit1_mono h1
  have e2 := many0_mono
    (fun _ _ _ hh => pair_mono (fun _ _ _ a => tag_mono a)
      (fun _ _ _ a => digit1_mono a) hh) h2
  have e3 : s3 = s2 := pnot_ok (cut_ok h3)
  subst hj
  refine ⟨le_trans e1 (le_trans e2 (le_of_eq e3.symm)), hv.symm⟩

theorem parse_kw_mono {src : Src} {i j : Nat} {v : Unit}
    (h : parse_kw src i = .ok j v) : i ≤ j := by
  unfold parse_kw at h
  obtain ⟨a, h1, -⟩ := map_ok h
  rcases alt4_ok h1 with h2 | h2 | h2 | h2 <;> exact tag_mono h2

theorem parse_id_inv {src : Src} {i j : Nat} {v : Span}
    (h : parse_id src i = .ok j v) : i ≤ j ∧ v = ⟨i, j⟩ := by
  unfold parse_id at h
  obtain ⟨s1, u1, h1, h⟩ := bindR_ok h
  obtain ⟨s2, u2, h2, h⟩ := bindR_ok h
  obtain ⟨s3, u3, h3, h⟩ := bindR_ok h
  injection h with hj hv
  have e1 : s1 = i := pnot_ok h1
  have e2 := alpha1_mono h2
  have e3 := many0_mono
    (fun _ _ _ hh => pair_mono (fun _ _ _ a => tag_mono a)
      (fun _ _ _ a => alphanumeric1_mono a) hh) h3
  subst hj
  subst e1
  exact ⟨le_trans e2 e3, hv.symm⟩

theorem parse_tag_inv {src : Src} {i j : Nat} {v : Span × Span}
    (h : parse_tag src i = .ok j v) :
    i ≤ j ∧ v.1 = ⟨i, j⟩ ∧ Span.covers v.1 v.2 := by
  unfold parse_tag at h
  obtain ⟨s1, sp, h1, h⟩ := bindR_ok h
  injection h with hj hv
  obtain ⟨m, a, h2, h3⟩ := preceded_ok h1
  obtain ⟨hm, rfl⟩ := parse_id_inv h3
  have e1 := pair_mono (fun _ _ _ a => tag_mono a)
    (fun _ _ _ a => multispace0_mono a) h2
  subst hj
  subst hv
  exact ⟨le_trans e1 hm, rfl, le_trans e1 (le_refl m), le_refl s1⟩

theorem parse_ellipsis_inv {src : Src} {i j : Nat} {v : Ellipsis}
    (h : parse_ellipsis src i = .ok j v) :
    i ≤ j ∧ v.span = ⟨i, j⟩ ∧ elWF v := by
  unfold parse_ellipsis at h
  obtain ⟨s1, io, h1, h⟩ := bindR_ok h
  injection h with hj hv
  obtain ⟨m, a, h2, h3⟩ := preceded_ok h1
  obtain ⟨m2, b, h4, h5⟩ := preceded_ok h3
  have e1 := tag_mono h2
  have e2 := multispace0_mono h4
  subst hj
  subst hv
  rcases opt_ok h5 with ⟨rfl, rfl⟩ | ⟨ns, rfl, h6⟩
  · exact ⟨le_trans e1 e2, rfl, trivial⟩
  · obtain ⟨hm, rfl⟩ := parse_id_inv h6
    exact ⟨le_trans e1 (le_trans e2 hm), rfl,
      ⟨le_trans e1 e2, le_refl _⟩⟩

theorem eint_inv {src : Src} {i j : Nat} {e : Expr}
    (h : eint src i = .ok j e) : i ≤ j ∧ espan e = ⟨i, j⟩ ∧ eWF e := by
  obtain ⟨sp, hp, rfl⟩ := map_ok h
  obtain ⟨hle, rfl⟩ := parse_int_inv hp
  exact ⟨hle, rfl, by simp [eWF]⟩

theorem eid_inv {src : Src} {i j : Nat} {e : Expr}
    (h : eid src i = .ok j e) : i ≤ j ∧ espan e = ⟨i, j⟩ ∧ eWF e := by
  obtain ⟨sp, hp, rfl⟩ := map_ok h
  obtain ⟨hle, rfl⟩ := parse_id_inv hp
  exact ⟨hle, rfl, by simp [eWF]⟩

theorem etag_inv {src : Src} {i j : Nat} {e : Expr}
    (h : etag src i = .ok j e) : i ≤ j ∧ espan e = ⟨i, j⟩ ∧ eWF e := by
  obtain ⟨sp, hp, rfl⟩ := map_ok h
  obtain ⟨hle, h1, h2⟩ := parse_tag_inv hp
  exact ⟨hle, h1, by simpa [eWF] using h2⟩

theorem eunit_inv {src : Src} {i j : Nat} {e : Expr}
    (h : eunit src i = .ok j e) : i ≤ j ∧ espan e = ⟨i, j⟩ ∧ eWF e := by
  unfold eunit at h
  obtain ⟨s1, u1, h1, h⟩ := bindR_ok h
  injection h with hj hv
  subst hj
  subst hv
  have := pair_mono (fun _ _ _ a => tag_mono a)
    (fun _ _ _ a => pair_mono (fun _ _ _ b => multispace0_mono b)
      (fun _ _ _ b => tag_mono b) a) h1
  exact ⟨this, rfl, by simp [eWF, eListWF]⟩

theorem pint_inv {src : Src} {i j : Nat} {p : Pattern}
    (h : pint src i = .ok j p) : i ≤ j ∧ pspan p = ⟨i, j⟩ ∧ pWF p := by
  obtain ⟨sp, hp, rfl⟩ := map_ok h
  obtain ⟨hle, rfl⟩ := parse_int_inv hp
  exact ⟨hle, rfl, by simp [pWF]⟩

theorem pid_inv {src : Src} {i j : Nat} {p : Pattern}
    (h : pid src i = .ok j p) : i ≤ j ∧ pspan p = ⟨i, j⟩ ∧ pWF p := by
  obtain ⟨sp, hp, rfl⟩ := map_ok h
  obtain ⟨hle, rfl⟩ := parse_id_inv hp
  exact ⟨hle, rfl, by simp [pWF]⟩

theorem ptag_inv {src : Src} {i j : Nat} {p : Pattern}
    (h : ptag src i = .ok j p) : i ≤ j ∧ pspan p = ⟨i, j⟩ ∧ pWF p := by
  obtain ⟨sp, hp, rfl⟩ := map_ok h
  obtain ⟨hle, h1, h2⟩ := parse_tag_inv hp
  exact ⟨hle, h1, by simpa [pWF] using h2⟩

theorem pignore_inv {src : Src} {i j : Nat} {p : Pattern}
    (h : pignore src i = .ok j p) : i ≤ j ∧ pspan p = ⟨i, j⟩ ∧ pWF p := by
  unfold pignore at h
  obtain ⟨s1, u1, h1, h⟩ := bindR_ok h
  injection h with hj hv
  subst hj
  subst hv
  have := pair_mono (fun _ _ _ a => tag_mono a)
    (fun _ _ _ a => opt_mono (fun _ _ _ b => (parse_id_inv b).1) a) h1
  exact ⟨this, rfl, by simp [pWF]⟩

theorem punit_inv {src : Src} {i j : Nat} {p : Pattern}
    (h : punit src i = .ok j p) : i ≤ j ∧ pspan p = ⟨i, j⟩ ∧ pWF p := by
  unfold punit at h
  obtain ⟨s1, u1, h1, h⟩ := bindR_ok h
  injection h with hj hv
  subst hj
  subst hv
  have := pair_mono (fun _ _ _ a => tag_mono a)
    (fun _ _ _ a => pair_mono (fun _ _ _ b => multispace0_mono b)
      (fun _ _ _ b => tag_mono b) a) h1
  exact ⟨this, rfl, by simp [pWF, pListWF]⟩

theorem not_app_spine {s : Nat} {e : Expr} (h : ¬ isEApp e) : appSpine s e := by
  cases e <;> simp [isEApp] at h ⊢ <;> simp [appSpine]

theorem not_papp_spine {s : Nat} {p : Pattern} (h : ¬ isPApp p) : pappSpine s p := by
  cases p <;> simp [isPApp] at h ⊢ <;> simp [pappSpine]

theorem not_fn_levels {stop : Nat} {e : Expr} (h : ¬ isEFn e) : fnLevels stop e := by
  cases e <;> simp [isEFn] at h ⊢ <;> simp [fnLevels]

theorem eparen_shape {src : Src} {n i j : Nat} {e : Expr}
    (h : eparen src n i = .ok j e) :
    ∃ inner, e = .paren ⟨i, j⟩ inner := by
  cases n with
  | zero => simp [eparen] at h
  | succ n =>
    simp only [eparen] at h
    obtain ⟨s1, inner, h1, h⟩ := bindR_ok h
    injection h with hj hv
    subst hj
    exact ⟨inner, hv.symm⟩

theorem eatom_root {src : Src} {n i j : Nat} {e : Expr}
    (h : eatom src n i = .ok j e) :
    espan e = ⟨i, j⟩ ∧ ¬ isEApp e ∧ ¬ isEFn e := by
  cases n with
  | zero => simp [eatom] at h
  | succ n =>
    simp only [eatom] at h
    rcases alt5_ok h with h1 | h1 | h1 | h1 | h1
    · obtain ⟨-, h2, -⟩ := eunit_inv h1
      unfold eunit at h1
      obtain ⟨s1, u1, -, h1⟩ := bindR_ok h1
      injection h1 with hj hv
      subst hj; subst hv
      exact ⟨rfl, by simp [isEApp], by simp [isEFn]⟩
    · obtain ⟨sp, hp, rfl⟩ := map_ok h1
      obtain ⟨-, rfl⟩ := parse_id_inv hp
      exact ⟨rfl, by simp [isEApp], by simp [isEFn]⟩
    · obtain ⟨sp, hp, rfl⟩ := map_ok h1
      obtain ⟨-, h2, -⟩ := parse_tag_inv hp
      exact ⟨h2, by simp [isEApp], by simp [isEFn]⟩
    · obtain ⟨sp, hp, rfl⟩ := map_ok h1
      obtain ⟨-, rfl⟩ := parse_int_inv hp
      exact ⟨rfl, by simp [isEApp], by simp [isEFn]⟩
    · obtain ⟨inner, rfl⟩ := eparen_shape h1
      exact ⟨rfl, by simp [isEApp], by simp [isEFn]⟩

theorem pparen_shape {src : Src} {n i j : Nat} {p : Pattern}
    (h : pparen src n i = .ok j p) :
    ∃ inner, p = .paren ⟨i, j⟩ inner := by
  cases n with
  | zero => simp [pparen] at h
  | succ n =>
    simp only [pparen] at h
    obtain ⟨s1, inner, h1, h⟩ := bindR_ok h
    injection h with hj hv
    subst hj
    exact ⟨inner, hv.symm⟩

theorem patom_root {src : Src} {n i j : Nat} {p : Pattern}
    (h : patom src n i = .ok j p) :
    pspan p = ⟨i, j⟩ ∧ ¬ isPApp p := by
  cases n with
  | zero => simp [patom] at h
  | succ n =>
    simp only [patom] at h
    rcases alt6_ok h with h1 | h1 | h1 | h1 | h1 | h1
    · obtain ⟨sp, hp, rfl⟩ := map_ok h1
      obtain ⟨-, rfl⟩ := parse_int_inv hp
      exact ⟨rfl, by simp [isPApp]⟩
    · obtain ⟨sp, hp, rfl⟩ := map_ok h1
      obtain ⟨-, rfl⟩ := parse_id_inv hp
      exact ⟨rfl, by simp [isPApp]⟩
    · obtain ⟨sp, hp, rfl⟩ := map_ok h1
      obtain ⟨-, h2, -⟩ := parse_tag_inv hp
      exact ⟨h2, by simp [isPApp]⟩
    · unfold pignore at h1
      obtain ⟨s1, u1, -, h1⟩ := bindR_ok h1
      injection h1 with hj hv
      subst hj; subst hv
      exact ⟨rfl, by simp [isPApp]⟩
    · unfold punit at h1
      obtain ⟨s1, u1, -, h1⟩ := bindR_ok h1
      injection h1 with hj hv
      subst hj; subst hv
      exact ⟨rfl, by simp [isPApp]⟩
    · obtain ⟨inner, rfl⟩ := pparen_shape h1
      exact ⟨rfl, by simp [isPApp]⟩

theorem eargs_stop {src : Src} {n i j : Nat} {v : Span × List Expr}
    (h : eargs src n i = .ok j v) : v.1 = ⟨i, j⟩ := by
  cases n with
  | zero => simp [eargs] at h
  | succ n =>
    simp only [eargs] at h
    obtain ⟨s1, xs, h1, h⟩ := bindR_ok h
    injection h with hj hv
    subst hj; subst hv
    rfl

theorem pargs_stop {src : Src} {n i j : Nat} {v : Span × List Pattern}
    (h : pargs src n i = .ok j v) : v.1 = ⟨i, j⟩ := by
  cases n with
  | zero => simp [pargs] at h
  | succ n =>
    simp only [pargs] at h
    obtain ⟨s1, xs, h1, h⟩ := bindR_ok h
    injection h with hj hv
    subst hj; subst hv
    rfl

theorem foldl_app_spine (s : Nat) :
    ∀ (ls : List (Span × List Expr)) (f : Expr) (m j : Nat),
      RunList (fun _ k' al => al.1.stop = k') m j ls →
      espan f = ⟨s, m⟩ → appSpine s f →
      espan (ls.foldl (fun f al => Expr.app (Span.to s al.1) f al.1 al.2) f)
          = ⟨s, j⟩ ∧
        appSpine s
          (ls.foldl (fun f al => Expr.app (Span.to s al.1) f al.1 al.2) f) := by
  intro ls
  induction ls with
  | nil =>
    intro f m j h hspan hspine
    cases h
    exact ⟨hspan, hspine⟩
  | cons al ls ih =>
    intro f m j h hspan hspine
    cases h with
    | cons hq hrest =>
      simp only [List.foldl_cons]
      refine ih _ _ _ hrest ?_ ?_
      · simp [espan, Span.to, hq]
      · simp [appSpine, Span.to]
        exact hspine

theorem foldl_papp_spine (s : Nat) :
    ∀ (ls : List (Span × List Pattern)) (f : Pattern) (m j : Nat),
      RunList (fun _ k' al => al.1.stop = k') m j ls →
      pspan f = ⟨s, m⟩ → pappSpine s f →
      pspan (ls.foldl (fun f al => Pattern.app (Span.to s al.1) f al.1 al.2) f)
          = ⟨s, j⟩ ∧
        pappSpine s
          (ls.foldl (fun f al => Pattern.app (Span.to s al.1) f al.1 al.2) f) := by
  intro ls
  induction ls with
  | nil =>
    intro f m j h hspan hspine
    cases h
    exact ⟨hspan, hspine⟩
  | cons al ls ih =>
    intro f m j h hspan hspine
    cases h with
    | cons hq hrest =>
      simp only [List.foldl_cons]
      refine ih _ _ _ hrest ?_ ?_
      · simp [pspan, Span.to, hq]
      · simp [pappSpine, Span.to]
        exact hspine

theorem foldl_app_not_fn {s : Nat} (ls : List (Span × List Expr)) (f : Expr)
    (hf : ¬ isEFn f) :
    ¬ isEFn (ls.foldl (fun f al => Expr.app (Span.to s al.1) f al.1 al.2) f) := by
  induction ls generalizing f with
  | nil => exact hf
  | cons al ls ih =>
    simp only [List.foldl_cons]
    exact ih _ (by simp [isEFn])

/-- Whenever `eapp` succeeds, its result has the left-fold application
chain shape: the root's span is exactly the consumed range and every
`app` node on the callee spine spans from the chain's start to the end of
its own argument-list span. -/
theorem eapp_spine {src : Src} {n i j : Nat} {e : Expr}
    (h : eapp src n i = .ok j e) :
    espan e = ⟨i, j⟩ ∧ appSpine i e ∧ ¬ isEFn e := by
  cases n with
  | zero => simp [eapp] at h
  | succ n =>
    simp only [eapp] at h
    obtain ⟨s1, fxs, h1, h⟩ := bindR_ok h
    injection h with hj hv
    subst hj; subst hv
    obtain ⟨m, f0, ls, hfxs, hatom, hmany⟩ := pair_ok h1
    subst hfxs
    obtain ⟨hspan0, hnotapp, hnotfn⟩ := eatom_root hatom
    have hrun := many0_run (Q := fun _ k' al => al.1.stop = k')
      (fun k k' al hel => by
        obtain ⟨mid, a, -, h3⟩ := preceded_ok hel
        rw [eargs_stop h3]) n m s1 ls hmany
    obtain ⟨h4, h5⟩ := foldl_app_spine i ls f0 m s1 hrun hspan0 (not_app_spine hnotapp)
    exact ⟨h4, h5, foldl_app_not_fn ls f0 hnotfn⟩

/-- Whenever `papp` succeeds, its result has the same left-fold
application chain shape as `eapp`'s. -/
theorem papp_spine {src : Src} {n i j : Nat} {p : Pattern}
    (h : papp src n i = .ok j p) :
    pspan p = ⟨i, j⟩ ∧ pappSpine i p := by
  cases n with
  | zero => simp [papp] at h
  | succ n =>
    simp only [papp] at h
    obtain ⟨s1, fxs, h1, h⟩ := bindR_ok h
    injection h with hj hv
    subst hj; subst hv
    obtain ⟨m, f0, ls, hfxs, hatom, hmany⟩ := pair_ok h1
    subst hfxs
    obtain ⟨hspan0, hnotapp⟩ := patom_root hatom
    have hrun := many0_run (Q := fun _ k' al => al.1.stop = k')
      (fun k k' al hel => by
        show al.1.stop = k'
        rw [pargs_stop hel]) n m s1 ls hmany
    exact foldl_papp_spine i ls f0 m s1 hrun hspan0 (not_papp_spine hnotapp)

theorem etuple_shape {src : Src} {n i j : Nat} {e : Expr}
    (h : etuple src n i = .ok j e) : ∃ s xs, e = .tuple s xs := by
  cases n with
  | zero => simp [etuple] at h
  | succ n =>
    simp only [etuple] at h
    obtain ⟨s1, xs, h1, h⟩ := bindR_ok h
    injection h with hj hv
    exact ⟨_, _, hv.symm⟩

theorem ecase_shape {src : Src} {n i j : Nat} {e : Expr}
    (h : ecase src n i = .ok j e) : ∃ s subj arms, e = .caseE s subj arms := by
  cases n with
  | zero => simp [ecase] at h
  | succ n =>
    simp only [ecase] at h
    obtain ⟨s1, sa, h1, h⟩ := bindR_ok h
    injection h with hj hv
    exact ⟨_, _, _, hv.symm⟩

theorem edo_shape {src : Src} {n i j : Nat} {e : Expr}
    (h : edo src n i = .ok j e) : ∃ s sts ret, e = .doE s sts ret := by
  cases n with
  | zero => simp [edo] at h
  | succ n =>
    simp only [edo] at h
    obtain ⟨s1, sr, h1, h⟩ := bindR_ok h
    injection h with hj hv
    exact ⟨_, _, _, hv.symm⟩

theorem eother_not_fn {src : Src} {n i j : Nat} {e : Expr}
    (h : eother src n i = .ok j e) : ¬ isEFn e := by
  cases n with
  | zero => simp [eother] at h
  | succ n =>
    simp only [eother] at h
    rcases alt3_ok h with h1 | h1 | h1
    · exact (eapp_spine h1).2.2
    · obtain ⟨s, subj, arms, rfl⟩ := ecase_shape h1
      simp [isEFn]
    · obtain ⟨s, sts, ret, rfl⟩ := edo_shape h1
      simp [isEFn]

/-- Mutual induction for the curried-function shape: a successful `efn` is
an `fn` node spanning exactly its consumed range whose levels all satisfy
`fnLevels`, and any successful `expr` satisfies `fnLevels` (trivially so
when its root is not an `fn` node). -/
theorem fn_master (src : Src) : ∀ n : Nat,
    (∀ i j e, efn src n i = .ok j e →
      espan e = ⟨i, j⟩ ∧ isEFn e ∧ fnLevels j e) ∧
    (∀ i j e, expr src n i = .ok j e → fnLevels j e) := by
  intro n
  induction n with
  | zero =>
    constructor
    · intro i j e h; simp [efn] at h
    · intro i j e h; simp [expr] at h
  | succ n ih =>
    constructor
    · intro i j e h
      simp only [efn] at h
      obtain ⟨x, hc, rfl⟩ := map_ok h
      obtain ⟨pb, hx, halt⟩ := consumed_ok hc
      subst hx
      rcases alt2_ok halt with h1 | ⟨-, -, h1⟩
      · obtain ⟨k, param, body, hpb, hpid, hbody⟩ := pair_ok h1
        subst hpb
        obtain ⟨-, rfl⟩ := parse_id_inv hpid
        obtain ⟨mid, a, -, hfn⟩ := preceded_ok hbody
        have hb := (ih.1 _ _ _ hfn).2.2
        exact ⟨rfl, by simp [isEFn], by simpa [fnLevels] using hb⟩
      · obtain ⟨k, param, body, hpb, hpid, hbody⟩ := pair_ok h1
        subst hpb
        obtain ⟨-, rfl⟩ := parse_id_inv hpid
        obtain ⟨mid, a, -, hexp⟩ := preceded_ok hbody
        have hb := ih.2 _ _ _ hexp
        exact ⟨rfl, by simp [isEFn], by simpa [fnLevels] using hb⟩
    · intro i j e h
      simp only [expr] at h
      rcases alt3_ok h with h1 | h1 | h1
      · exact (ih.1 _ _ _ h1).2.2
      · obtain ⟨s, xs, rfl⟩ := etuple_shape h1
        simp [fnLevels]
      · exact not_fn_levels (eother_not_fn h1)

theorem covers_widen {o o2 i : Span} (h : Span.covers o i)
    (h1 : o2.start ≤ o.start) (h2 : o.stop ≤ o2.stop) : Span.covers o2 i :=
  ⟨le_trans h1 h.1, le_trans h.2 h2⟩

theorem pListWF_of_forall {s : Span} :
    ∀ {xs : List Pattern}, (∀ p ∈ xs, Span.covers s (pspan p) ∧ pWF p) →
      pListWF s xs := by
  intro xs
  induction xs with
  | nil => intro _; rw [pListWF]; trivial
  | cons p ps ih =>
    intro h
    rw [pListWF]
    exact ⟨h p (List.mem_cons_self p ps),
      ih fun q hq => h q (List.mem_cons_of_mem p hq)⟩

theorem eListWF_of_forall {s : Span} :
    ∀ {xs : List Expr}, (∀ e ∈ xs, Span.covers s (espan e) ∧ eWF e) →
      eListWF s xs := by
  intro xs
  induction xs with
  | nil => intro _; rw [eListWF]; trivial
  | cons e es ih =>
    intro h
    rw [eListWF]
    exact ⟨h e (List.mem_cons_self e es),
      ih fun q hq => h q (List.mem_cons_of_mem e hq)⟩

theorem armsWF_of_forall {s : Span} :
    ∀ {xs : List Arm}, (∀ a ∈ xs, Span.covers s a.span ∧ armWF a) →
      armsWF s xs := by
  intro xs
  induction xs with
  | nil => intro _; rw [armsWF]; trivial
  | cons a as ih =>
    intro h
    rw [armsWF]
    exact ⟨h a (List.mem_cons_self a as),
      ih fun q hq => h q (List.mem_cons_of_mem a hq)⟩

theorem stmtsWF_of_forall {s : Span} :
    ∀ {xs : List Statement}, (∀ st ∈ xs, Span.covers s (stspan st) ∧ stWF st) →
      stmtsWF s xs := by
  intro xs
  induction xs with
  | nil => intro _; rw [stmtsWF]; trivial
  | cons a as ih =>
    intro h
    rw [stmtsWF]
    exact ⟨h a (List.mem_cons_self a as),
      ih fun q hq => h q (List.mem_cons_of_mem a hq)⟩

theorem foldl_app_wf (s : Nat) :
    ∀ (ls : List (Span × List Expr)) (f : Expr) (m j : Nat),
      RunList (fun k k' al => ∃ mid, k ≤ mid ∧ al.1 = ⟨mid, k'⟩ ∧ mid ≤ k' ∧
        ∀ e ∈ al.2, Span.covers al.1 (espan e) ∧ eWF e) m j ls →
      espan f = ⟨s, m⟩ → eWF f → s ≤ m →
      m ≤ j ∧
        espan (ls.foldl (fun f al => Expr.app (Span.to s al.1) f al.1 al.2) f)
          = ⟨s, j⟩ ∧
        eWF (ls.foldl (fun f al => Expr.app (Span.to s al.1) f al.1 al.2) f) := by
  intro ls
  induction ls with
  | nil =>
    intro f m j h hspan hwf hsm
    cases h
    exact ⟨le_refl _, hspan, hwf⟩
  | cons al ls ih =>
    intro f m j h hspan hwf hsm
    cases h with
    | cons hq hrest =>
      rename_i k
      obtain ⟨mid, hmmid, hal, hmidk, hels⟩ := hq
      simp only [List.foldl_cons]
      have hto : Span.to s al.1 = ⟨s, k⟩ := by simp [Span.to, hal]
      have hspan' : espan (Expr.app (Span.to s al.1) f al.1 al.2) = ⟨s, k⟩ := by
        simp [espan, hto]
      have hwf' : eWF (Expr.app (Span.to s al.1) f al.1 al.2) := by
        rw [eWF, hto, hal]
        refine ⟨?_, hwf, ?_, ?_⟩
        · rw [hspan]
          exact ⟨le_refl s, le_trans hmmid hmidk⟩
        · exact ⟨le_trans hsm hmmid, le_refl k⟩
        · refine eListWF_of_forall fun e he => ?_
          obtain ⟨hc, hw⟩ := hels e he
          rw [hal] at hc
          exact ⟨covers_widen hc (by simpa using le_trans hsm hmmid)
            (by simp), hw⟩
      obtain ⟨h1, h2, h3⟩ := ih _ k j hrest hspan' hwf'
        (le_trans hsm (le_trans hmmid hmidk))
      exact ⟨le_trans (le_trans hmmid hmidk) h1, h2, h3⟩

theorem foldl_papp_wf (s : Nat) :
    ∀ (ls : List (Span × List Pattern)) (f : Pattern) (m j : Nat),
      RunList (fun k k' al => ∃ mid, k ≤ mid ∧ al.1 = ⟨mid, k'⟩ ∧ mid ≤ k' ∧
        ∀ p ∈ al.2, Span.covers al.1 (pspan p) ∧ pWF p) m j ls →
      pspan f = ⟨s, m⟩ → pWF f → s ≤ m →
      m ≤ j ∧
        pspan (ls.foldl (fun f al => Pattern.app (Span.to s al.1) f al.1 al.2) f)
          = ⟨s, j⟩ ∧
        pWF (ls.foldl (fun f al => Pattern.app (Span.to s al.1) f al.1 al.2) f) := by
  intro ls
  induction ls with
  | nil =>
    intro f m j h hspan hwf hsm
    cases h
    exact ⟨le_refl _, hspan, hwf⟩
  | cons al ls ih =>
    intro f m j h hspan hwf hsm
    cases h with
    | cons hq hrest =>
      rename_i k
      obtain ⟨mid, hmmid, hal, hmidk, hels⟩ := hq
      simp only [List.foldl_cons]
      have hto : Span.to s al.1 = ⟨s, k⟩ := by simp [Span.to, hal]
      have hspan' : pspan (Pattern.app (Span.to s al.1) f al.1 al.2) = ⟨s, k⟩ := by
        simp [pspan, hto]
      have hwf' : pWF (Pattern.app (Span.to s al.1) f al.1 al.2) := by
        rw [pWF, hto, hal]
        refine ⟨?_, hwf, ?_, ?_⟩
        · rw [hspan]
          exact ⟨le_refl s, le_trans hmmid hmidk⟩
        · exact ⟨le_trans hsm hmmid, le_refl k⟩
        · refine pListWF_of_forall fun p hp => ?_
          obtain ⟨hc, hw⟩ := hels p hp
          rw [hal] at hc
          exact ⟨covers_widen hc (by simpa using le_trans hsm hmmid)
            (by simp), hw⟩
      obtain ⟨h1, h2, h3⟩ := ih _ k j hrest hspan' hwf'
        (le_trans hsm (le_trans hmmid hmidk))
      exact ⟨le_trans (le_trans hmmid hmidk) h1, h2, h3⟩

theorem wsTokWs_mono {src : Src} {t : List Char} {i j : Nat} {v : Unit}
    (h : preceded (multispace0 src) (terminated (tag t src) (multispace0 src)) i
      = .ok j v) : i ≤ j := by
  obtain ⟨k, a, h1, h2⟩ := preceded_ok h
  obtain ⟨l, c, h3, h4⟩ := terminated_ok h2
  exact le_trans (multispace0_mono h1)
    (le_trans (tag_mono h3) (multispace0_mono h4))

theorem openTok_mono {src : Src} {t : List Char} {i j : Nat} {v : Unit × Unit}
    (h : pair (tag t src) (multispace0 src) i = .ok j v) : i ≤ j :=
  pair_mono (fun _ _ _ x => tag_mono x) (fun _ _ _ x => multispace0_mono x) h

theorem closeTok_mono {src : Src} {t : List Char} {i j : Nat} {v : Unit × Unit}
    (h : pair (multispace0 src) (tag t src) i = .ok j v) : i ≤ j :=
  pair_mono (fun _ _ _ x => multispace0_mono x) (fun _ _ _ x => tag_mono x) h

theorem step_pparen {src : Src} {n : Nat} (ih : Invs src n) :
    ∀ i j p, pparen src (n + 1) i = .ok j p →
      i ≤ j ∧ pspan p = ⟨i, j⟩ ∧ pWF p := by
  intro i j p h
  simp only [pparen] at h
  obtain ⟨s1, inner, hd, h⟩ := bindR_ok h
  injection h with hj hv
  subst hj; subst hv
  obtain ⟨k1, a, k2, c, hopen, hpat, hclose⟩ := delimited_ok hd
  obtain ⟨h1, h2, h3⟩ := ih.patternI _ _ _ hpat
  have ho : i ≤ k1 := openTok_mono hopen
  have hc : k2 ≤ s1 := closeTok_mono hclose
  refine ⟨le_trans ho (le_trans h1 hc), rfl, ?_⟩
  rw [pWF, h2]
  exact ⟨⟨ho, hc⟩, h3⟩

theorem step_patom {src : Src} {n : Nat} (ih : Invs src n) :
    ∀ i j p, patom src (n + 1) i = .ok j p →
      i ≤ j ∧ pspan p = ⟨i, j⟩ ∧ pWF p := by
  intro i j p h
  simp only [patom] at h
  rcases alt6_ok h with h1 | h1 | h1 | h1 | h1 | h1
  · exact pint_inv h1
  · exact pid_inv h1
  · exact ptag_inv h1
  · exact pignore_inv h1
  · exact punit_inv h1
  · exact ih.pparenI _ _ _ h1

theorem step_pitem {src : Src} {n : Nat} (ih : Invs src n) :
    ∀ i j p, pitem src (n + 1) i = .ok j p →
      i ≤ j ∧ pspan p = ⟨i, j⟩ ∧ pWF p := by
  intro i j p h
  simp only [pitem] at h
  rcases alt2_ok h with h1 | ⟨-, -, h1⟩
  · obtain ⟨el, hel, rfl⟩ := map_ok h1
    obtain ⟨hle, hspan, hwf⟩ := parse_ellipsis_inv hel
    exact ⟨hle, by simpa [pspan] using hspan, by simpa [pWF] using hwf⟩
  · exact ih.potherI _ _ _ h1

theorem step_pargs {src : Src} {n : Nat} (ih : Invs src n) :
    ∀ i j v, pargs src (n + 1) i = .ok j v →
      i ≤ j ∧ v.1 = ⟨i, j⟩ ∧
        ∀ p ∈ v.2, Span.covers v.1 (pspan p) ∧ pWF p := by
  intro i j v h
  simp only [pargs] at h
  obtain ⟨s1, xs, hd, h⟩ := bindR_ok h
  injection h with hj hv
  subst hj; subst hv
  obtain ⟨k1, a, k2, c, hopen, hsep, hclose⟩ := delimited_ok hd
  have ho : i ≤ k1 := openTok_mono hopen
  have hc : k2 ≤ s1 := closeTok_mono hclose
  have hrun := separatedList0_run
    (Q := fun m k' p => m ≤ k' ∧ pspan p = ⟨m, k'⟩ ∧ pWF p)
    (fun _ _ _ x => sepComma_mono x)
    (fun a b p hp => ih.pitemI a b p hp) hsep
  have hQle : ∀ (k k' : Nat) (p : Pattern),
      (∃ m, k ≤ m ∧ m ≤ k' ∧ pspan p = ⟨m, k'⟩ ∧ pWF p) → k ≤ k' := by
    rintro k k' p ⟨m, hm, hq, -, -⟩
    exact le_trans hm hq
  have hk12 : k1 ≤ k2 := RunList.le hQle hrun
  refine ⟨le_trans ho (le_trans hk12 hc), rfl, ?_⟩
  intro p hp
  obtain ⟨k, k', hk, ⟨m, hm, hmle, hspan, hwf⟩, hk'⟩ :=
    RunList.mem_bounds hQle hrun p hp
  rw [hspan]
  exact ⟨⟨le_trans ho (le_trans hk hm), le_trans hk' hc⟩, hwf⟩

theorem step_papp {src : Src} {n : Nat} (ih : Invs src n) :
    ∀ i j p, papp src (n + 1) i = .ok j p →
      i ≤ j ∧ pspan p = ⟨i, j⟩ ∧ pWF p := by
  intro i j p h
  simp only [papp] at h
  obtain ⟨s1, fxs, h1, h⟩ := bindR_ok h
  injection h with hj hv
  subst hj; subst hv
  obtain ⟨m, f0, ls, hfxs, hatom, hmany⟩ := pair_ok h1
  subst hfxs
  obtain ⟨him, hspan0, hwf0⟩ := ih.patomI _ _ _ hatom
  have hrun := many0_run
    (Q := fun k k' al => ∃ mid, k ≤ mid ∧ al.1 = ⟨mid, k'⟩ ∧ mid ≤ k' ∧
      ∀ q ∈ al.2, Span.covers al.1 (pspan q) ∧ pWF q)
    (fun k k' al hel => by
      obtain ⟨hle, hfst, hels⟩ := ih.pargsI _ _ _ hel
      exact ⟨k, le_refl k, hfst, hle, hels⟩) n m s1 ls hmany
  obtain ⟨hmj, hspan, hwf⟩ := foldl_papp_wf i ls f0 m s1 hrun hspan0 hwf0 him
  exact ⟨le_trans him hmj, hspan, hwf⟩

theorem step_pother {src : Src} {n : Nat} (ih : Invs src n) :
    ∀ i j p, pother src (n + 1) i = .ok j p →
      i ≤ j ∧ pspan p = ⟨i, j⟩ ∧ pWF p := by
  intro i j p h
  simp only [pother] at h
  exact ih.pappI _ _ _ h

theorem step_ptuple {src : Src} {n : Nat} (ih : Invs src n) :
    ∀ i j p, ptuple src (n + 1) i = .ok j p →
      i ≤ j ∧ pspan p = ⟨i, j⟩ ∧ pWF p := by
  intro i j p h
  simp only [ptuple] at h
  obtain ⟨s1, xs, h1, h⟩ := bindR_ok h
  injection h with hj hv
  subst hj; subst hv
  obtain ⟨k1, as, ox, hxs, hmany1, hopt⟩ := pair_ok h1
  subst hxs
  have hQ : ∀ (k k' : Nat) (q : Pattern),
      terminated (pitem src n) (sepComma src) k = .ok k' q →
      ∃ mid, pspan q = ⟨k, mid⟩ ∧ pWF q ∧ k ≤ mid ∧ mid ≤ k' := by
    intro k k' q hp
    obtain ⟨mid, c, hpi, hsep⟩ := terminated_ok hp
    obtain ⟨hle, hspan, hwf⟩ := ih.pitemI _ _ _ hpi
    exact ⟨mid, hspan, hwf, hle, sepComma_mono hsep⟩
  have hrun := (many1_run
    (Q := fun k k' q => ∃ mid, pspan q = ⟨k, mid⟩ ∧ pWF q ∧ k ≤ mid ∧ mid ≤ k')
    hQ hmany1).1
  have hQle : ∀ (k k' : Nat) (q : Pattern),
      (∃ mid, pspan q = ⟨k, mid⟩ ∧ pWF q ∧ k ≤ mid ∧ mid ≤ k') → k ≤ k' := by
    rintro k k' q ⟨mid, -, -, hm, hm2⟩
    exact le_trans hm hm2
  have hik1 : i ≤ k1 := RunList.le hQle hrun
  have hmem : ∀ q ∈ as, ∀ hi : i ≤ s1, k1 ≤ s1 →
      Span.covers ⟨i, s1⟩ (pspan q) ∧ pWF q := by
    intro q hq hi hks
    obtain ⟨k, k', hk, ⟨mid, hspan, hwf, hm1, hm2⟩, hk'⟩ :=
      RunList.mem_bounds hQle hrun q hq
    rw [hspan]
    exact ⟨⟨hk, le_trans hm2 (le_trans hk' hks)⟩, hwf⟩
  rcases opt_ok hopt with ⟨rfl, rfl⟩ | ⟨p0, rfl, hp0⟩
  · refine ⟨hik1, rfl, ?_⟩
    rw [pWF]
    refine pListWF_of_forall ?_
    intro q hq
    simp only [Option.toList_none, List.append_nil] at hq
    exact hmem q hq hik1 (le_refl _)
  · obtain ⟨hp0le, hp0span, hp0wf⟩ := ih.pitemI _ _ _ hp0
    refine ⟨le_trans hik1 hp0le, rfl, ?_⟩
    rw [pWF]
    refine pListWF_of_forall ?_
    intro q hq
    simp only [Option.toList_some] at hq
    rcases List.mem_append.mp hq with hq1 | hq2
    · exact hmem q hq1 (le_trans hik1 hp0le) hp0le
    · rcases List.mem_singleton.mp hq2 with rfl
      rw [hp0span]
      exact ⟨⟨hik1, le_refl _⟩, hp0wf⟩

theorem step_pattern {src : Src} {n : Nat} (ih : Invs src n) :
    ∀ i j p, pattern src (n + 1) i = .ok j p →
      i ≤ j ∧ pspan p = ⟨i, j⟩ ∧ pWF p := by
  intro i j p h
  simp only [pattern] at h
  rcases alt2_ok h with h1 | ⟨-, -, h1⟩
  · exact ih.ptupleI _ _ _ h1
  · exact ih.potherI _ _ _ h1

theorem step_eparen {src : Src} {n : Nat} (ih : Invs src n) :
    ∀ i j e, eparen src (n + 1) i = .ok j e →
      i ≤ j ∧ espan e = ⟨i, j⟩ ∧ eWF e := by
  intro i j e h
  simp only [eparen] at h
  obtain ⟨s1, inner, hd, h⟩ := bindR_ok h
  injection h with hj hv
  subst hj; subst hv
  obtain ⟨k1, a, k2, c, hopen, hexp, hclose⟩ := delimited_ok hd
  obtain ⟨h1, h2, h3⟩ := ih.exprI _ _ _ hexp
  have ho : i ≤ k1 := openTok_mono hopen
  have hc : k2 ≤ s1 := closeTok_mono hclose
  refine ⟨le_trans ho (le_trans h1 hc), rfl, ?_⟩
  rw [eWF, h2]
  exact ⟨⟨ho, hc⟩, h3⟩

theorem step_eatom {src : Src} {n : Nat} (ih : Invs src n) :
    ∀ i j e, eatom src (n + 1) i = .ok j e →
      i ≤ j ∧ espan e = ⟨i, j⟩ ∧ eWF e := by
  intro i j e h
  simp only [eatom] at h
  rcases alt5_ok h with h1 | h1 | h1 | h1 | h1
  · exact eunit_inv h1
  · exact eid_inv h1
  · exact etag_inv h1
  · exact eint_inv h1
  · exact ih.eparenI _ _ _ h1

theorem step_eitem {src : Src} {n : Nat} (ih : Invs src n) :
    ∀ i j e, eitem src (n + 1) i = .ok j e →
      i ≤ j ∧ espan e = ⟨i, j⟩ ∧ eWF e := by
  intro i j e h
  simp only [eitem] at h
  rcases alt2_ok h with h1 | ⟨-, -, h1⟩
  · obtain ⟨el, hel, rfl⟩ := map_ok h1
    obtain ⟨hle, hspan, hwf⟩ := parse_ellipsis_inv hel
    exact ⟨hle, by simpa [espan] using hspan, by simpa [eWF] using hwf⟩
  · exact ih.eotherI _ _ _ h1

theorem step_eargs {src : Src} {n : Nat} (ih : Invs src n) :
    ∀ i j v, eargs src (n + 1) i = .ok j v →
      i ≤ j ∧ v.1 = ⟨i, j⟩ ∧
        ∀ e ∈ v.2, Span.covers v.1 (espan e) ∧ eWF e := by
  intro i j v h
  simp only [eargs] at h
  obtain ⟨s1, xs, hd, h⟩ := bindR_ok h
  injection h with hj hv
  subst hj; subst hv
  obtain ⟨k1, a, k2, c, hopen, hmid, hclose⟩ := delimited_ok hd
  obtain ⟨kk, as, ox, hmids, hmany, hopt⟩ := pair_ok hmid
  subst hmids
  have ho : i ≤ k1 := openTok_mono hopen
  have hc : k2 ≤ s1 := closeTok_mono hclose
  have hQ : ∀ (k k' : Nat) (q : Expr),
      terminated (eitem src n) (sepComma src) k = .ok k' q →
      ∃ mid, espan q = ⟨k, mid⟩ ∧ eWF q ∧ k ≤ mid ∧ mid ≤ k' := by
    intro k k' q hp
    obtain ⟨mid, cc, hpi, hsep⟩ := terminated_ok hp
    obtain ⟨hle, hspan, hwf⟩ := ih.eitemI _ _ _ hpi
    exact ⟨mid, hspan, hwf, hle, sepComma_mono hsep⟩
  have hQle : ∀ (k k' : Nat) (q : Expr),
      (∃ mid, espan q = ⟨k, mid⟩ ∧ eWF q ∧ k ≤ mid ∧ mid ≤ k') → k ≤ k' := by
    rintro k k' q ⟨mid, -, -, hm, hm2⟩
    exact le_trans hm hm2
  have hrun := many0_run
    (Q := fun k k' q => ∃ mid, espan q = ⟨k, mid⟩ ∧ eWF q ∧ k ≤ mid ∧ mid ≤ k')
    hQ n k1 kk as hmany
  have hk1kk : k1 ≤ kk := RunList.le hQle hrun
  have hmem : ∀ hkk2 : kk ≤ k2, ∀ q ∈ as,
      Span.covers ⟨i, s1⟩ (espan q) ∧ eWF q := by
    intro hkk2 q hq
    obtain ⟨k, k', hk, ⟨mid, hspan, hwf, hm1, hm2⟩, hk'⟩ :=
      RunList.mem_bounds hQle hrun q hq
    rw [hspan]
    exact ⟨⟨le_trans ho hk,
      le_trans hm2 (le_trans hk' (le_trans hkk2 hc))⟩, hwf⟩
  rcases opt_ok hopt with ⟨rfl, rfl⟩ | ⟨p0, rfl, hp0⟩
  · refine ⟨le_trans ho (le_trans hk1kk hc), rfl, ?_⟩
    intro q hq
    simp only [Option.toList_none, List.append_nil] at hq
    exact hmem (le_refl _) q hq
  · obtain ⟨hp0le, hp0span, hp0wf⟩ := ih.eitemI _ _ _ hp0
    refine ⟨le_trans ho (le_trans hk1kk (le_trans hp0le hc)), rfl, ?_⟩
    intro q hq
    simp only [Option.toList_some] at hq
    rcases List.mem_append.mp hq with hq1 | hq2
    · exact hmem hp0le q hq1
    · rcases List.mem_singleton.mp hq2 with rfl
      rw [hp0span]
      exact ⟨⟨le_trans ho hk1kk, hc⟩, hp0wf⟩

theorem step_eapp {src : Src} {n : Nat} (ih : Invs src n) :
    ∀ i j e, eapp src (n + 1) i = .ok j e →
      i ≤ j ∧ espan e = ⟨i, j⟩ ∧ eWF e := by
  intro i j e h
  simp only [eapp] at h
  obtain ⟨s1, fxs, h1, h⟩ := bindR_ok h
  injection h with hj hv
  subst hj; subst hv
  obtain ⟨m, f0, ls, hfxs, hatom, hmany⟩ := pair_ok h1
  subst hfxs
  obtain ⟨him, hspan0, hwf0⟩ := ih.eatomI _ _ _ hatom
  have hrun := many0_run
    (Q := fun k k' al => ∃ mid, k ≤ mid ∧ al.1 = ⟨mid, k'⟩ ∧ mid ≤ k' ∧
      ∀ q ∈ al.2, Span.covers al.1 (espan q) ∧ eWF q)
    (fun k k' al hel => by
      obtain ⟨mid0, aa, hws, h3⟩ := preceded_ok hel
      obtain ⟨hle, hfst, hels⟩ := ih.eargsI _ _ _ h3
      exact ⟨mid0, multispace0_mono hws, hfst, hle, hels⟩) n m s1 ls hmany
  obtain ⟨hmj, hspan, hwf⟩ := foldl_app_wf i ls f0 m s1 hrun hspan0 hwf0 him
  exact ⟨le_trans him hmj, hspan, hwf⟩

theorem step_etuple {src : Src} {n : Nat} (ih : Invs src n) :
    ∀ i j e, etuple src (n + 1) i = .ok j e →
      i ≤ j ∧ espan e = ⟨i, j⟩ ∧ eWF e := by
  intro i j e h
  simp only [etuple] at h
  obtain ⟨s1, xs, h1, h⟩ := bindR_ok h
  injection h with hj hv
  subst hj; subst hv
  obtain ⟨k1, as, ox, hxs, hmany1, hopt⟩ := pair_ok h1
  subst hxs
  have hQ : ∀ (k k' : Nat) (q : Expr),
      terminated (eitem src n) (sepComma src) k = .ok k' q →
      ∃ mid, espan q = ⟨k, mid⟩ ∧ eWF q ∧ k ≤ mid ∧ mid ≤ k' := by
    intro k k' q hp
    obtain ⟨mid, cc, hpi, hsep⟩ := terminated_ok hp
    obtain ⟨hle, hspan, hwf⟩ := ih.eitemI _ _ _ hpi
    exact ⟨mid, hspan, hwf, hle, sepComma_mono hsep⟩
  have hrun := (many1_run
    (Q := fun k k' q => ∃ mid, espan q = ⟨k, mid⟩ ∧ eWF q ∧ k ≤ mid ∧ mid ≤ k')
    hQ hmany1).1
  have hQle : ∀ (k k' : Nat) (q : Expr),
      (∃ mid, espan q = ⟨k, mid⟩ ∧ eWF q ∧ k ≤ mid ∧ mid ≤ k') → k ≤ k' := by
    rintro k k' q ⟨mid, -, -, hm, hm2⟩
    exact le_trans hm hm2
  have hik1 : i ≤ k1 := RunList.le hQle hrun
  have hmem : ∀ q ∈ as, k1 ≤ s1 →
      Span.covers ⟨i, s1⟩ (espan q) ∧ eWF q := by
    intro q hq hks
    obtain ⟨k, k', hk, ⟨mid, hspan, hwf, hm1, hm2⟩, hk'⟩ :=
      RunList.mem_bounds hQle hrun q hq
    rw [hspan]
    exact ⟨⟨hk, le_trans hm2 (le_trans hk' hks)⟩, hwf⟩
  rcases opt_ok hopt with ⟨rfl, rfl⟩ | ⟨p0, rfl, hp0⟩
  · refine ⟨hik1, rfl, ?_⟩
    rw [eWF]
    refine eListWF_of_forall ?_
    intro q hq
    simp only [Option.toList_none, List.append_nil] at hq
    exact hmem q hq (le_refl _)
  · obtain ⟨mid2, aa, hws, hp1⟩ := preceded_ok hp0
    obtain ⟨hp0le, hp0span, hp0wf⟩ := ih.eitemI _ _ _ hp1
    have hk1mid2 : k1 ≤ mid2 := multispace0_mono hws
    refine ⟨le_trans hik1 (le_trans hk1mid2 hp0le), rfl, ?_⟩
    rw [eWF]
    refine eListWF_of_forall ?_
    intro q hq
    simp only [Option.toList_some] at hq
    rcases List.mem_append.mp hq with hq1 | hq2
    · exact hmem q hq1 (le_trans hk1mid2 hp0le)
    · rcases List.mem_singleton.mp hq2 with rfl
      rw [hp0span]
      exact ⟨⟨le_trans hik1 hk1mid2, le_refl _⟩, hp0wf⟩

theorem step_arm {src : Src} {n : Nat} (ih : Invs src n) :
    ∀ i j a, arm src (n + 1) i = .ok j a →
      i ≤ j ∧ a.span = ⟨i, j⟩ ∧ armWF a := by
  intro i j a h
  simp only [arm] at h
  obtain ⟨s1, pe, h1, h⟩ := bindR_ok h
  injection h with hj hv
  subst hj; subst hv
  obtain ⟨k, pat, e0, hpe, hp1, hp2⟩ := pair_ok h1
  subst hpe
  obtain ⟨m1, aa, hof, hpat⟩ := preceded_ok hp1
  obtain ⟨hkle, hpspan, hpwf⟩ := ih.patternI _ _ _ hpat
  obtain ⟨m2, bb, heq, hexp⟩ := preceded_ok hp2
  obtain ⟨hele, hespan, hewf⟩ := ih.exprI _ _ _ hexp
  have h1m : i ≤ m1 := by
    obtain ⟨mm, cc, ht, hw⟩ := terminated_ok hof
    exact le_trans (tag_mono ht) (multispace0_mono hw)
  have hkm2 : k ≤ m2 := wsTokWs_mono heq
  refine ⟨le_trans h1m (le_trans hkle (le_trans hkm2 hele)), rfl, ?_⟩
  rw [armWF, hpspan, hespan]
  exact ⟨⟨h1m, le_trans hkm2 hele⟩, hpwf,
    ⟨le_trans h1m (le_trans hkle hkm2), le_refl _⟩, hewf⟩

theorem step_ecase {src : Src} {n : Nat} (ih : Invs src n) :
    ∀ i j e, ecase src (n + 1) i = .ok j e →
      i ≤ j ∧ espan e = ⟨i, j⟩ ∧ eWF e := by
  intro i j e h
  simp only [ecase] at h
  obtain ⟨s1, sa, h1, h⟩ := bindR_ok h
  injection h with hj hv
  subst hj; subst hv
  obtain ⟨k, subj, arms, hsa, hsubj, harms⟩ := pair_ok h1
  subst hsa
  obtain ⟨m1, aa, hcase, hexp⟩ := preceded_ok hsubj
  obtain ⟨hsle, hsspan, hswf⟩ := ih.exprI _ _ _ hexp
  have him1 : i ≤ m1 := openTok_mono hcase
  obtain ⟨k2, cc, hmany, hclose⟩ := terminated_ok harms
  have hk2s1 : k2 ≤ s1 := closeTok_mono hclose
  have hQ : ∀ (kk kk' : Nat) (a : Arm),
      preceded (multispace0 src) (arm src n) kk = .ok kk' a →
      ∃ mid, kk ≤ mid ∧ a.span = ⟨mid, kk'⟩ ∧ mid ≤ kk' ∧ armWF a := by
    intro kk kk' a hp
    obtain ⟨mid, dd, hws, harm⟩ := preceded_ok hp
    obtain ⟨hle, hspan, hwf⟩ := ih.armI _ _ _ harm
    exact ⟨mid, multispace0_mono hws, hspan, hle, hwf⟩
  have hQle : ∀ (kk kk' : Nat) (a : Arm),
      (∃ mid, kk ≤ mid ∧ a.span = ⟨mid, kk'⟩ ∧ mid ≤ kk' ∧ armWF a) →
        kk ≤ kk' := by
    rintro kk kk' a ⟨mid, hm, -, hm2, -⟩
    exact le_trans hm hm2
  have hrun := many0_run
    (Q := fun kk kk' a => ∃ mid, kk ≤ mid ∧ a.span = ⟨mid, kk'⟩ ∧
      mid ≤ kk' ∧ armWF a) hQ n k k2 arms hmany
  have hkk2 : k ≤ k2 := RunList.le hQle hrun
  refine ⟨le_trans him1 (le_trans hsle (le_trans hkk2 hk2s1)), rfl, ?_⟩
  rw [eWF, hsspan]
  refine ⟨⟨him1, le_trans hkk2 hk2s1⟩, hswf, armsWF_of_forall ?_⟩
  intro a ha
  obtain ⟨kk, kk', hkk, ⟨mid, hm, hspan, hm2, hwf⟩, hkk'⟩ :=
    RunList.mem_bounds hQle hrun a ha
  rw [hspan]
  exact ⟨⟨le_trans him1 (le_trans hsle (le_trans hkk hm)),
    le_trans hkk' hk2s1⟩, hwf⟩

theorem step_assign {src : Src} {n : Nat} (ih : Invs src n) :
    ∀ i j st, assign src (n + 1) i = .ok j st →
      i ≤ j ∧ stspan st = ⟨i, j⟩ ∧ stWF st := by
  intro i j st h
  simp only [assign] at h
  obtain ⟨s1, pe, h1, h⟩ := bindR_ok h
  injection h with hj hv
  subst hj; subst hv
  obtain ⟨k, pat, e0, hpe, hp1, hp2⟩ := pair_ok h1
  subst hpe
  obtain ⟨hkle, hpspan, hpwf⟩ := ih.patternI _ _ _ hp1
  obtain ⟨m2, bb, heq, hexp⟩ := preceded_ok hp2
  obtain ⟨hele, hespan, hewf⟩ := ih.exprI _ _ _ hexp
  have hkm2 : k ≤ m2 := wsTokWs_mono heq
  refine ⟨le_trans hkle (le_trans hkm2 hele), rfl, ?_⟩
  rw [stWF, hpspan, hespan]
  exact ⟨⟨le_refl _, le_trans hkm2 hele⟩, hpwf,
    ⟨le_trans hkle hkm2, le_refl _⟩, hewf⟩

theorem step_statement {src : Src} {n : Nat} (ih : Invs src n) :
    ∀ i j st, statement src (n + 1) i = .ok j st →
      i ≤ j ∧ stspan st = ⟨i, j⟩ ∧ stWF st := by
  intro i j st h
  simp only [statement] at h
  rcases alt2_ok h with h1 | ⟨-, -, h1⟩
  · exact ih.assignI _ _ _ h1
  · obtain ⟨e0, hexp, rfl⟩ := map_ok h1
    obtain ⟨hle, hspan, hwf⟩ := ih.exprI _ _ _ hexp
    exact ⟨hle, by simpa [stspan] using hspan, by simpa [stWF] using hwf⟩

theorem step_edo {src : Src} {n : Nat} (ih : Invs src n) :
    ∀ i j e, edo src (n + 1) i = .ok j e →
      i ≤ j ∧ espan e = ⟨i, j⟩ ∧ eWF e := by
  intro i j e h
  simp only [edo] at h
  obtain ⟨s1, sr, hd, h⟩ := bindR_ok h
  injection h with hj hv
  subst hj; subst hv
  obtain ⟨k1, a, k2, c, hopen, hmid, hclose⟩ := delimited_ok hd
  obtain ⟨kk, sts, ret, hmids, hmany, hopt⟩ := pair_ok hmid
  subst hmids
  have ho : i ≤ k1 := openTok_mono hopen
  have hc : k2 ≤ s1 := closeTok_mono hclose
  have hQ : ∀ (k k' : Nat) (st : Statement),
      terminated (statement src n)
        (preceded (multispace0 src)
          (terminated (tag [';'] src) (multispace0 src))) k = .ok k' st →
      ∃ mid, stspan st = ⟨k, mid⟩ ∧ stWF st ∧ k ≤ mid ∧ mid ≤ k' := by
    intro k k' st hp
    obtain ⟨mid, cc, hst, hsep⟩ := terminated_ok hp
    obtain ⟨hle, hspan, hwf⟩ := ih.statementI _ _ _ hst
    exact ⟨mid, hspan, hwf, hle, wsTokWs_mono hsep⟩
  have hQle : ∀ (k k' : Nat) (st : Statement),
      (∃ mid, stspan st = ⟨k, mid⟩ ∧ stWF st ∧ k ≤ mid ∧ mid ≤ k') →
        k ≤ k' := by
    rintro k k' st ⟨mid, -, -, hm, hm2⟩
    exact le_trans hm hm2
  have hrun := many0_run
    (Q := fun k k' st => ∃ mid, stspan st = ⟨k, mid⟩ ∧ stWF st ∧
      k ≤ mid ∧ mid ≤ k') hQ n k1 kk sts hmany
  have hk1kk : k1 ≤ kk := RunList.le hQle hrun
  have hmem : kk ≤ k2 → ∀ st ∈ sts,
      Span.covers ⟨i, s1⟩ (stspan st) ∧ stWF st := by
    intro hkk2 st hst
    obtain ⟨k, k', hk, ⟨mid, hspan, hwf, hm1, hm2⟩, hk'⟩ :=
      RunList.mem_bounds hQle hrun st hst
    rw [hspan]
    exact ⟨⟨le_trans ho hk,
      le_trans hm2 (le_trans hk' (le_trans hkk2 hc))⟩, hwf⟩
  rcases opt_ok hopt with ⟨rfl, rfl⟩ | ⟨e0, rfl, he0⟩
  · refine ⟨le_trans ho (le_trans hk1kk hc), rfl, ?_⟩
    rw [eWF]
    refine ⟨stmtsWF_of_forall (hmem (le_refl _)), ?_⟩
    rw [optEWF]
    trivial
  · obtain ⟨hele, hespan, hewf⟩ := ih.exprI _ _ _ he0
    refine ⟨le_trans ho (le_trans hk1kk (le_trans hele hc)), rfl, ?_⟩
    rw [eWF]
    refine ⟨stmtsWF_of_forall (hmem hele), ?_⟩
    rw [optEWF, hespan]
    exact ⟨⟨le_trans ho hk1kk, hc⟩, hewf⟩

theorem step_efn {src : Src} {n : Nat} (ih : Invs src n) :
    ∀ i j e, efn src (n + 1) i = .ok j e →
      i ≤ j ∧ espan e = ⟨i, j⟩ ∧ eWF e := by
  intro i j e h
  simp only [efn] at h
  obtain ⟨x, hc, rfl⟩ := map_ok h
  obtain ⟨pb, hx, halt⟩ := consumed_ok hc
  subst hx
  rcases alt2_ok halt with h1 | ⟨-, -, h1⟩
  · obtain ⟨k, param, body, hpb, hpid, hbody⟩ := pair_ok h1
    subst hpb
    obtain ⟨hik, rfl⟩ := parse_id_inv hpid
    obtain ⟨mid, aa, hws, hfn⟩ := preceded_ok hbody
    obtain ⟨hmj, hbspan, hbwf⟩ := ih.efnI _ _ _ hfn
    have hkm : k ≤ mid := multispace0_mono hws
    refine ⟨le_trans hik (le_trans hkm hmj), rfl, ?_⟩
    rw [eWF, hbspan]
    exact ⟨⟨le_refl _, le_trans hkm hmj⟩,
      ⟨le_trans hik hkm, le_refl _⟩, hbwf⟩
  · obtain ⟨k, param, body, hpb, hpid, hbody⟩ := pair_ok h1
    subst hpb
    obtain ⟨hik, rfl⟩ := parse_id_inv hpid
    obtain ⟨mid, aa, harrow, hexp⟩ := preceded_ok hbody
    obtain ⟨hmj, hbspan, hbwf⟩ := ih.exprI _ _ _ hexp
    have hkm : k ≤ mid := wsTokWs_mono harrow
    refine ⟨le_trans hik (le_trans hkm hmj), rfl, ?_⟩
    rw [eWF, hbspan]
    exact ⟨⟨le_refl _, le_trans hkm hmj⟩,
      ⟨le_trans hik hkm, le_refl _⟩, hbwf⟩

theorem step_eother {src : Src} {n : Nat} (ih : Invs src n) :
    ∀ i j e, eother src (n + 1) i = .ok j e →
      i ≤ j ∧ espan e = ⟨i, j⟩ ∧ eWF e := by
  intro i j e h
  simp only [eother] at h
  rcases alt3_ok h with h1 | h1 | h1
  · exact ih.eappI _ _ _ h1
  · exact ih.ecaseI _ _ _ h1
  · exact ih.edoI _ _ _ h1

theorem step_expr {src : Src} {n : Nat} (ih : Invs src n) :
    ∀ i j e, expr src (n + 1) i = .ok j e →
      i ≤ j ∧ espan e = ⟨i, j⟩ ∧ eWF e := by
  intro i j e h
  simp only [expr] at h
  rcases alt3_ok h with h1 | h1 | h1
  · exact ih.efnI _ _ _ h1
  · exact ih.etupleI _ _ _ h1
  · exact ih.eotherI _ _ _ h1

/-- The master invariant: at every fuel, every grammar rule that succeeds
stamps exactly its consumed range as the resulting node's span and builds
a tree satisfying the containment invariant. -/
theorem invs_all (src : Src) : ∀ n : Nat, Invs src n := by
  intro n
  induction n with
  | zero =>
    refine ⟨?_, ?_, ?_, ?_, ?_, ?_, ?_, ?_, ?_, ?_, ?_,
      ?_, ?_, ?_, ?_, ?_, ?_, ?_, ?_, ?_, ?_, ?_⟩ <;>
      intro i j v h <;>
      simp [pparen, patom, pitem, pargs, papp, pother, ptuple, pattern,
        eparen, eatom, eitem, eargs, eapp, etuple, arm, ecase, assign,
        statement, edo, efn, eother, expr] at h
  | succ n ih =>
    exact ⟨step_pparen ih, step_patom ih, step_pitem ih, step_pargs ih,
      step_papp ih, step_pother ih, step_ptuple ih, step_pattern ih,
      step_eparen ih, step_eatom ih, step_eitem ih, step_eargs ih,
      step_eapp ih, step_etuple ih, step_arm ih, step_ecase ih,
      step_assign ih, step_statement ih, step_edo ih, step_efn ih,
      step_eother ih, step_expr ih⟩

theorem wsChar {c : Char} (h : c.isWhitespace = true) :
    c = ' ' ∨ c = '\t' ∨ c = '\r' ∨ c = '\n' := by
  have h' : ((c = ' ' ∨ c = '\t') ∨ c = '\r') ∨ c = '\n' := by
    simpa [Char.isWhitespace] using h
  tauto

theorem ws_not_alpha {c : Char} (h : c.isWhitespace = true) :
    c.isAlpha = false := by
  rcases wsChar h with rfl | rfl | rfl | rfl <;> decide

theorem ws_not_digit {c : Char} (h : c.isWhitespace = true) :
    c.isDigit = false := by
  rcases wsChar h with rfl | rfl | rfl | rfl <;> decide

theorem ws_beq_false {c d : Char} (h : c.isWhitespace = true)
    (hd : d.isWhitespace = false) : (d == c) = false := by
  refine beq_eq_false_iff_ne.mpr fun he => ?_
  subst he
  rw [h] at hd
  cases hd

theorem alpha_beq_false {c d : Char} (h : c.isAlpha = true)
    (hd : d.isAlpha = false) : (d == c) = false := by
  refine beq_eq_false_iff_ne.mpr fun he => ?_
  subst he
  rw [h] at hd
  cases hd

theorem alpha_not_ws {c : Char} (h : c.isAlpha = true) :
    c.isWhitespace = false := by
  cases hw : c.isWhitespace
  · rfl
  · rcases wsChar hw with rfl | rfl | rfl | rfl <;> simp at h

theorem spanLen_append_all {f : Char → Bool} {w : List Char}
    (hw : ∀ c ∈ w, f c = true) (r : List Char) :
    Nom.spanLen f (w ++ r) = w.length + Nom.spanLen f r := by
  induction w with
  | nil => simp [Nom.spanLen]
  | cons c cs ih =>
    have hc := hw c (List.mem_cons_self c cs)
    simp only [List.cons_append, Nom.spanLen, hc, if_true, List.append_eq]
    rw [ih fun d hd => hw d (List.mem_cons_of_mem c hd)]
    simp only [List.length_cons]
    omega

theorem spanLen_cons_false {f : Char → Bool} {c : Char} (hc : f c = false)
    (l : List Char) : Nom.spanLen f (c :: l) = 0 := by
  simp [Nom.spanLen, hc]

theorem spanLen_le_length {f : Char → Bool} :
    ∀ l : List Char, Nom.spanLen f l ≤ l.length := by
  intro l
  induction l with
  | nil => simp [Nom.spanLen]
  | cons c cs ih =>
    by_cases hc : f c
    · simp [Nom.spanLen, hc]; omega
    · simp [Nom.spanLen, hc]

theorem drop_shift {src : Src} {i : Nat} {x r : List Char}
    (h : src.drop i = x ++ r) : src.drop (i + x.length) = r := by
  rw [← List.drop_drop, h, List.drop_left]

theorem drop_succ_of {src : Src} {i : Nat} {c : Char} {r : List Char}
    (h : src.drop i = c :: r) : src.drop (i + 1) = r :=
  drop_shift (x := [c]) (by simpa using h)

namespace Nom

theorem tag_of_drop {src : Src} {t r : List Char} {i : Nat}
    (h : src.drop i = t ++ r) : tag t src i = .ok (i + t.length) () := by
  unfold tag
  rw [h, if_pos]
  exact List.isPrefixOf_iff_prefix.mpr (List.prefix_append t r)

theorem tag_fail {src : Src} {t : List Char} {i : Nat}
    (h : t.isPrefixOf (src.drop i) = false) : tag t src i = .soft i := by
  unfold tag
  rw [h]
  simp

theorem charClass1_of {f : Char → Bool} {src : Src} {i : Nat}
    (h : spanLen f (src.drop i) ≠ 0) :
    charClass1 f src i = .ok (i + spanLen f (src.drop i)) () := by
  unfold charClass1
  rw [if_neg h]

theorem charClass1_fail {f : Char → Bool} {src : Src} {i : Nat}
    (h : spanLen f (src.drop i) = 0) : charClass1 f src i = .soft i := by
  unfold charClass1
  rw [if_pos h]

theorem multispace0_at {src : Src} (i : Nat) :
    multispace0 src i = .ok (i + spanLen Char.isWhitespace (src.drop i)) () :=
  rfl

theorem tag_bound {src : Src} {t : List Char} {i j : Nat} {v : Unit}
    (ht : t ≠ []) (h : tag t src i = .ok j v) : i < j ∧ j ≤ src.length := by
  obtain ⟨rfl, hpre⟩ := tag_ok h
  have h1 : t.length ≤ (src.drop i).length :=
    (List.isPrefixOf_iff_prefix.mp hpre).length_le
  rw [List.length_drop] at h1
  have h2 : 0 < t.length := List.length_pos.mpr ht
  omega

theorem charClass1_bound {f : Char → Bool} {src : Src} {i j : Nat} {v : Unit}
    (h : charClass1 f src i = .ok j v) : i < j ∧ j ≤ src.length := by
  obtain ⟨rfl, hk⟩ := charClass1_ok h
  have h1 : spanLen f (src.drop i) ≤ (src.drop i).length := spanLen_le_length _
  rw [List.length_drop] at h1
  omega

theorem tag_not_fatal {src : Src} {t : List Char} (i e : Nat) :
    tag t src i ≠ .fatal e := by
  unfold tag
  split <;> simp

theorem charClass1_not_fatal {f : Char → Bool} {src : Src} (i e : Nat) :
    charClass1 f src i ≠ .fatal e := by
  unfold charClass1
  split <;> simp

theorem pair_not_fatal {α β : Type} {p : Parser α} {q : Parser β}
    (hp : ∀ i e, p i ≠ .fatal e) (hq : ∀ i e, q i ≠ .fatal e) (i e : Nat) :
    pair p q i ≠ .fatal e := by
  unfold pair
  intro h
  cases hp1 : p i with
  | ok j a =>
    rw [hp1] at h
    simp only [bindR_at_ok] at h
    cases hq1 : q j with
    | ok k b => rw [hq1] at h; simp at h
    | soft k => rw [hq1] at h; simp at h
    | fatal k =>
      exact hq j k hq1
  | soft j => rw [hp1] at h; simp at h
  | fatal j => exact hp i j hp1

theorem many0_total {α : Type} {src : Src} {p : Parser α}
    (hp : ∀ i j a, p i = .ok j a → i < j ∧ j ≤ src.length)
    (hnf : ∀ i e, p i ≠ .fatal e) :
    ∀ fuel i, i ≤ src.length → src.length - i < fuel →
      ∃ j as, many0 fuel p i = .ok j as ∧ i ≤ j ∧ j ≤ src.length := by
  intro fuel
  induction fuel with
  | zero => intro i h1 h2; omega
  | succ n ih =>
    intro i h1 h2
    cases hp1 : p i with
    | soft e => exact ⟨i, [], by simp [many0, hp1], le_refl _, h1⟩
    | fatal e => exact absurd hp1 (hnf i e)
    | ok k a =>
      obtain ⟨hik, hkb⟩ := hp _ _ _ hp1
      obtain ⟨j, as, hm, hkj, hjb⟩ := ih k hkb (by omega)
      refine ⟨j, a :: as, ?_, le_trans (le_of_lt hik) hkj, hjb⟩
      have hne : ¬ (k = i) := by omega
      simp only [many0, hp1, if_neg hne, hm, bindR_at_ok]

theorem alt2_fatal {α : Type} {p q : Parser α} {i e : Nat}
    (h : p i = .fatal e) : alt2 p q i = .fatal e := by
  unfold alt2
  rw [h]

end Nom

theorem undTail_nil (tail : List Char) : undTail [] tail = tail := rfl

theorem undTail_cons (g : List Char) (gs : List (List Char)) (tail : List Char) :
    undTail (g :: gs) tail = '_' :: (g ++ undTail gs tail) := rfl

theorem undTail_length_ge (tail : List Char) :
    ∀ gs : List (List Char), gs.length ≤ (undTail gs tail).length := by
  intro gs
  induction gs with
  | nil => simp
  | cons g gs ih =>
    rw [undTail_cons]
    simp only [List.length_cons, List.length_append]
    omega

theorem spanLen_digit_undTail_zero {ws : List Char} (hws : allWS ws)
    (gs : List (List Char)) (rest : List Char) :
    Nom.spanLen Char.isDigit (undTail gs (ws ++ '_' :: rest)) = 0 := by
  cases gs with
  | cons g gs => rw [undTail_cons]; exact spanLen_cons_false (by decide) _
  | nil =>
    rw [undTail_nil]
    cases ws with
    | nil => exact spanLen_cons_false (by decide) _
    | cons c w =>
      exact spanLen_cons_false (ws_not_digit (hws c (List.mem_cons_self c w))) _

theorem many0_und {src : Src} :
    ∀ (gs : List (List Char)) (fuel s2 : Nat) (tail : List Char),
      (∀ g ∈ gs, g ≠ [] ∧ ∀ c ∈ g, c.isDigit = true) →
      src.drop s2 = undTail gs tail →
      Nom.spanLen Char.isDigit tail = 0 →
      (∀ r, tail = '_' :: r → Nom.spanLen Char.isDigit r = 0) →
      gs.length < fuel →
      ∃ s3 u,
        Nom.many0 fuel (Nom.pair (Nom.tag ['_'] src) (Nom.digit1 src)) s2
          = .ok s3 u ∧ src.drop s3 = tail := by
  intro gs
  induction gs with
  | nil =>
    intro fuel s2 tail hgs hd ht0 ht1 hf
    obtain ⟨n, rfl⟩ : ∃ n, fuel = n + 1 := ⟨fuel - 1, by omega⟩
    rw [undTail_nil] at hd
    have hfailp : Nom.pair (Nom.tag ['_'] src) (Nom.digit1 src) s2
        = .soft s2 ∨ ∃ e, Nom.pair (Nom.tag ['_'] src) (Nom.digit1 src) s2
        = .soft e := by
      cases htail : tail with
      | nil =>
        left
        unfold Nom.pair
        rw [Nom.tag_fail (by rw [hd, htail]; simp [List.isPrefixOf])]
        rfl
      | cons c r =>
        by_cases hc : c = '_'
        · subst hc
          right
          have htag : Nom.tag ['_'] src s2 = .ok (s2 + 1) () := by
            simpa using Nom.tag_of_drop (t := ['_']) (r := r)
              (by rw [hd, htail]; rfl)
          have hdig : Nom.digit1 src (s2 + 1) = .soft (s2 + 1) := by
            unfold Nom.digit1
            exact Nom.charClass1_fail
              (by rw [drop_succ_of (by rw [hd, htail] : src.drop s2 = '_' :: r)]
                  exact ht1 r htail)
          refine ⟨s2 + 1, ?_⟩
          unfold Nom.pair
          rw [htag]
          simp only [Nom.bindR_at_ok]
          rw [hdig]
          rfl
        · left
          unfold Nom.pair
          rw [Nom.tag_fail ?_]
          · rfl
          · rw [hd, htail]
            simp only [List.isPrefixOf]
            rw [beq_eq_false_iff_ne.mpr fun he => hc he.symm]
            rfl
    rcases hfailp with hfp | ⟨e, hfp⟩ <;>
      exact ⟨s2, [], by simp only [Nom.many0, hfp], hd⟩
  | cons g gs ih =>
    intro fuel s2 tail hgs hd ht0 ht1 hf
    obtain ⟨n, rfl⟩ : ∃ n, fuel = n + 1 := ⟨fuel - 1, by omega⟩
    rw [undTail_cons] at hd
    obtain ⟨hgne, hgd⟩ := hgs g (List.mem_cons_self g gs)
    have hgs' := fun g' hg' => hgs g' (List.mem_cons_of_mem g hg')
    have htag : Nom.tag ['_'] src s2 = .ok (s2 + 1) () := by
      simpa using Nom.tag_of_drop (t := ['_']) (r := g ++ undTail gs tail)
        (by rw [hd]; rfl)
    have hd1 : src.drop (s2 + 1) = g ++ undTail gs tail := drop_succ_of hd
    have hz : Nom.spanLen Char.isDigit (undTail gs tail) = 0 := by
      cases gs with
      | cons g' gs' => rw [undTail_cons]; exact spanLen_cons_false (by decide) _
      | nil => rw [undTail_nil]; exact ht0
    have hlen : Nom.spanLen Char.isDigit (src.drop (s2 + 1)) = g.length := by
      rw [hd1, spanLen_append_all hgd, hz]
      omega
    have hdig : Nom.digit1 src (s2 + 1) = .ok (s2 + 1 + g.length) () := by
      unfold Nom.digit1
      rw [Nom.charClass1_of (by rw [hlen]; simpa using hgne), hlen]
    have hpair : Nom.pair (Nom.tag ['_'] src) (Nom.digit1 src) s2
        = .ok (s2 + 1 + g.length) ((), ()) := by
      unfold Nom.pair
      rw [htag]
      simp only [Nom.bindR_at_ok]
      rw [hdig]
      rfl
    have hd2 : src.drop (s2 + 1 + g.length) = undTail gs tail :=
      drop_shift (i := s2 + 1) hd1
    obtain ⟨s3, u, hm, hd3⟩ :=
      ih n (s2 + 1 + g.length) tail hgs' hd2 ht0 ht1
        (by simpa using Nat.lt_of_succ_lt_succ hf)
    refine ⟨s3, ((), ()) :: u, ?_, hd3⟩
    have hne : ¬ (s2 + 1 + g.length = s2) := by omega
    simp only [Nom.many0, hpair, if_neg hne, hm, Nom.bindR_at_ok]

/-- Against the decomposition "digit group, `_`-joined digit groups,
optional whitespace, `_`": `parse_int` fails fatally (nom's
`Err::Failure`), at the offset just past the digit groups. -/
theorem parse_int_fatal {src : Src} {s : Nat} {g0 : List Char}
    {gs : List (List Char)} {ws rest : List Char}
    (hd : src.drop s = g0 ++ undTail gs (ws ++ '_' :: rest))
    (hg0 : g0 ≠ []) (hg0d : ∀ c ∈ g0, c.isDigit = true)
    (hgs : ∀ g ∈ gs, g ≠ [] ∧ ∀ c ∈ g, c.isDigit = true)
    (hws : allWS ws)
    (hrest : ws = [] → Nom.spanLen Char.isDigit rest = 0) :
    ∃ e, parse_int src s = .fatal e := by
  have hz : Nom.spanLen Char.isDigit (undTail gs (ws ++ '_' :: rest)) = 0 :=
    spanLen_digit_undTail_zero hws gs rest
  have hlen : Nom.spanLen Char.isDigit (src.drop s) = g0.length := by
    rw [hd, spanLen_append_all hg0d, hz]
    omega
  have hdig : Nom.digit1 src s = .ok (s + g0.length) () := by
    unfold Nom.digit1
    rw [Nom.charClass1_of (by rw [hlen]; simpa using hg0), hlen]
  have hd1 : src.drop (s + g0.length) = undTail gs (ws ++ '_' :: rest) :=
    drop_shift hd
  have ht0 : Nom.spanLen Char.isDigit (ws ++ '_' :: rest) = 0 := by
    have := spanLen_digit_undTail_zero hws ([]) rest
    rwa [undTail_nil] at this
  have ht1 : ∀ r, ws ++ '_' :: rest = '_' :: r →
      Nom.spanLen Char.isDigit r = 0 := by
    intro r hr
    cases ws with
    | nil =>
      simp only [List.nil_append, List.cons.injEq] at hr
      rw [← hr.2]
      exact hrest rfl
    | cons c w =>
      simp only [List.cons_append, List.cons.injEq] at hr
      have := hws c (List.mem_cons_self c w)
      rw [hr.1] at this
      exact absurd this (by decide)
  have hfuel : gs.length < src.length + 1 := by
    have h1 := undTail_length_ge (ws ++ '_' :: rest) gs
    have h2 : (undTail gs (ws ++ '_' :: rest)).length
        = (src.drop (s + g0.length)).length := by rw [hd1]
    rw [List.length_drop] at h2
    omega
  obtain ⟨s3, u, hm, hd3⟩ :=
    many0_und gs (src.length + 1) (s + g0.length) (ws ++ '_' :: rest)
      hgs hd1 ht0 ht1 hfuel
  have hwsr : Nom.multispace0 src s3 = .ok (s3 + ws.length) () := by
    rw [Nom.multispace0_at]
    rw [hd3, spanLen_append_all (fun c hc => hws c hc),
      spanLen_cons_false (by decide)]
    simp
  have hd4 : src.drop (s3 + ws.length) = '_' :: rest :=
    drop_shift (by rw [hd3])
  have htag : Nom.tag ['_'] src (s3 + ws.length)
      = .ok (s3 + ws.length + 1) () := by
    simpa using Nom.tag_of_drop (t := ['_']) (r := rest) (by rw [hd4]; rfl)
  have hlook : Nom.pair (Nom.multispace0 src) (Nom.tag ['_'] src) s3
      = .ok (s3 + ws.length + 1) ((), ()) := by
    unfold Nom.pair
    rw [hwsr]
    simp only [Nom.bindR_at_ok]
    rw [htag]
    rfl
  refine ⟨s3, ?_⟩
  unfold parse_int
  rw [hdig]
  simp only [Nom.bindR_at_ok]
  rw [hm]
  simp only [Nom.bindR_at_ok]
  have : Nom.cut (Nom.pnot (Nom.pair (Nom.multispace0 src) (Nom.tag ['_'] src)))
      s3 = .fatal s3 := by
    unfold Nom.cut Nom.pnot
    rw [hlook]
  rw [this]
  rfl

/-- When the cursor does not sit on a digit, `parse_int` fails softly at
the starting offset, with no consumption. -/
theorem parse_int_soft {src : Src} {s : Nat}
    (h : Nom.spanLen Char.isDigit (src.drop s) = 0) :
    parse_int src s = .soft s := by
  unfold parse_int Nom.digit1
  rw [Nom.charClass1_fail h]
  rfl

theorem tag_ok_pre {src : Src} {t : List Char} {s : Nat}
    (h : t.isPrefixOf (src.drop s) = true) :
    Nom.tag t src s = .ok (s + t.length) () := by
  unfold Nom.tag
  simp [h]

theorem parse_kw_soft {src : Src} {s : Nat}
    (h1 : ['c', 'a', 's', 'e'].isPrefixOf (src.drop s) = false)
    (h2 : ['o', 'f'].isPrefixOf (src.drop s) = false)
    (h3 : ['d', 'o'].isPrefixOf (src.drop s) = false)
    (h4 : ['e', 'n', 'd'].isPrefixOf (src.drop s) = false) :
    parse_kw src s = .soft s := by
  simp only [parse_kw, Nom.value, Nom.map, Nom.alt4, Nom.alt3, Nom.alt2,
    Nom.tag_fail h1, Nom.tag_fail h2, Nom.tag_fail h3, Nom.tag_fail h4,
    Nom.bindR_at_soft]

theorem parse_kw_ok {src : Src} {s : Nat}
    (h : kwPrefix (src.drop s) = true) :
    ∃ j, parse_kw src s = .ok j () := by
  by_cases hc : ['c', 'a', 's', 'e'].isPrefixOf (src.drop s) = true
  · refine ⟨s + 4, ?_⟩
    simp only [parse_kw, Nom.value, Nom.map, Nom.alt4, Nom.alt3, Nom.alt2,
      tag_ok_pre hc, Nom.bindR_at_ok]
    rfl
  · have hc' : ['c', 'a', 's', 'e'].isPrefixOf (src.drop s) = false :=
      Bool.eq_false_iff.mpr hc
    by_cases ho : ['o', 'f'].isPrefixOf (src.drop s) = true
    · refine ⟨s + 2, ?_⟩
      simp only [parse_kw, Nom.value, Nom.map, Nom.alt4, Nom.alt3, Nom.alt2,
        Nom.tag_fail hc', tag_ok_pre ho, Nom.bindR_at_ok]
      rfl
    · have ho' : ['o', 'f'].isPrefixOf (src.drop s) = false :=
        Bool.eq_false_iff.mpr ho
      by_cases hd : ['d', 'o'].isPrefixOf (src.drop s) = true
      · refine ⟨s + 2, ?_⟩
        simp only [parse_kw, Nom.value, Nom.map, Nom.alt4, Nom.alt3, Nom.alt2,
          Nom.tag_fail hc', Nom.tag_fail ho', tag_ok_pre hd, Nom.bindR_at_ok]
        rfl
      · have hd' : ['d', 'o'].isPrefixOf (src.drop s) = false :=
          Bool.eq_false_iff.mpr hd
        by_cases he : ['e', 'n', 'd'].isPrefixOf (src.drop s) = true
        · refine ⟨s + 3, ?_⟩
          simp only [parse_kw, Nom.value, Nom.map, Nom.alt4, Nom.alt3,
            Nom.alt2, Nom.tag_fail hc', Nom.tag_fail ho', Nom.tag_fail hd',
            tag_ok_pre he, Nom.bindR_at_ok]
          rfl
        · exfalso
          have he' : ['e', 'n', 'd'].isPrefixOf (src.drop s) = false :=
            Bool.eq_false_iff.mpr he
          rw [kwPrefix, hc', ho', hd', he'] at h
          simp at h

/-- When one of the reserved keywords is a literal prefix of the remaining
input, `parse_id` fails softly at its starting offset, consuming
nothing. -/
theorem parse_id_reject {src : Src} {s : Nat}
    (h : kwPrefix (src.drop s) = true) : parse_id src s = .soft s := by
  obtain ⟨j, hk⟩ := parse_kw_ok h
  unfold parse_id
  have hpn : Nom.pnot (parse_kw src) s = .soft s := by
    unfold Nom.pnot
    rw [hk]
  rw [hpn]
  rfl

/-- When no reserved keyword is a prefix of the remaining input and the
cursor sits on an alphabetic character, `parse_id` succeeds, consuming at
least that character and stamping exactly the consumed range. -/
theorem parse_id_accept {src : Src} {s : Nat}
    (h1 : kwPrefix (src.drop s) = false)
    (h2 : Nom.spanLen Char.isAlpha (src.drop s) ≠ 0) :
    ∃ j, s < j ∧ j ≤ src.length ∧ parse_id src s = .ok j ⟨s, j⟩ := by
  rw [kwPrefix] at h1
  have hc := Bool.or_eq_false_iff.mp h1
  have hc2 := Bool.or_eq_false_iff.mp hc.1
  have hc3 := Bool.or_eq_false_iff.mp hc2.1
  have hkw : parse_kw src s = .soft s :=
    parse_kw_soft hc3.1 hc3.2 hc2.2 hc.2
  have hpn : Nom.pnot (parse_kw src) s = .ok s () := by
    unfold Nom.pnot
    rw [hkw]
  have halpha : Nom.charClass1 Char.isAlpha src s
      = .ok (s + Nom.spanLen Char.isAlpha (src.drop s)) () :=
    Nom.charClass1_of h2
  obtain ⟨hs1, hs2⟩ := Nom.charClass1_bound halpha
  obtain ⟨j, as, hm, hle, hjb⟩ := Nom.many0_total
    (p := Nom.pair (Nom.tag ['_'] src) (Nom.alphanumeric1 src))
    (fun i j a ha => by
      obtain ⟨mid, u1, u2, -, ht, ha2⟩ := Nom.pair_ok ha
      obtain ⟨hta, htb⟩ := Nom.tag_bound (by simp) ht
      obtain ⟨haa, hab⟩ := Nom.charClass1_bound ha2
      exact ⟨lt_trans hta haa, hab⟩)
    (Nom.pair_not_fatal (fun i e => Nom.tag_not_fatal i e)
      (fun i e => Nom.charClass1_not_fatal i e))
    (src.length + 1) (s + Nom.spanLen Char.isAlpha (src.drop s)) hs2 (by omega)
  refine ⟨j, lt_of_lt_of_le hs1 hle, hjb, ?_⟩
  unfold parse_id
  rw [hpn]
  simp only [Nom.bindR_at_ok]
  rw [show Nom.alpha1 src s
      = .ok (s + Nom.spanLen Char.isAlpha (src.drop s)) () from halpha]
  simp only [Nom.bindR_at_ok]
  rw [hm]
  rfl

/-- `expr` is an ordered choice; when all three top-level alternatives
fail softly, the failure returned is the LAST alternative's
(`eother`'s), as nom's `alt` keeps the error of its last branch. -/
theorem expr_last_err {src : Src} {n i a b c : Nat}
    (h1 : efn src n i = .soft a) (h2 : etuple src n i = .soft b)
    (h3 : eother src n i = .soft c) : expr src (n + 1) i = .soft c := by
  simp only [expr, Nom.alt3, Nom.alt2, h1, h2, h3]

theorem kwPrefix_rparen (c : Char) (rest : List Char) :
    kwPrefix (c :: ')' :: rest) = false := by
  simp [kwPrefix, List.isPrefixOf,
    (by decide : (('a' : Char) == ')') = false),
    (by decide : (('f' : Char) == ')') = false),
    (by decide : (('o' : Char) == ')') = false),
    (by decide : (('n' : Char) == ')') = false)]

theorem kwPrefix_f (l : List Char) : kwPrefix ('f' :: l) = false := by
  simp [kwPrefix, List.isPrefixOf,
    (by decide : (('c' : Char) == 'f') = false),
    (by decide : (('o' : Char) == 'f') = false),
    (by decide : (('d' : Char) == 'f') = false),
    (by decide : (('e' : Char) == 'f') = false)]

theorem parse_id_exact {src : Src} {q : Nat} {c : Char} {r : List Char}
    (hc : c.isAlpha = true) (hd : src.drop q = c :: r)
    (hkw : kwPrefix (c :: r) = false)
    (hra : Nom.spanLen Char.isAlpha r = 0)
    (hru : ['_'].isPrefixOf r = false) :
    parse_id src q = .ok (q + 1) ⟨q, q + 1⟩ := by
  rw [kwPrefix] at hkw
  have hk1 := Bool.or_eq_false_iff.mp hkw
  have hk2 := Bool.or_eq_false_iff.mp hk1.1
  have hk3 := Bool.or_eq_false_iff.mp hk2.1
  have hkwp : parse_kw src q = .soft q :=
    parse_kw_soft (by rw [hd]; exact hk3.1) (by rw [hd]; exact hk3.2)
      (by rw [hd]; exact hk2.2) (by rw [hd]; exact hk1.2)
  have hpn : Nom.pnot (parse_kw src) q = .ok q () := by
    unfold Nom.pnot
    rw [hkwp]
  have hsp : Nom.spanLen Char.isAlpha (src.drop q) = 1 := by
    rw [hd]
    simp [Nom.spanLen, hc, hra]
  have halpha : Nom.alpha1 src q = .ok (q + 1) () := by
    unfold Nom.alpha1
    rw [Nom.charClass1_of (by rw [hsp]; omega), hsp]
  have hdr : src.drop (q + 1) = r := drop_succ_of hd
  have hp : Nom.pair (Nom.tag ['_'] src) (Nom.alphanumeric1 src) (q + 1)
      = .soft (q + 1) := by
    unfold Nom.pair
    rw [Nom.tag_fail (by rw [hdr]; exact hru)]
    rfl
  have hm : Nom.many0 (src.length + 1)
      (Nom.pair (Nom.tag ['_'] src) (Nom.alphanumeric1 src)) (q + 1)
      = .ok (q + 1) [] := by
    simp only [Nom.many0, hp]
  unfold parse_id
  rw [hpn]
  simp only [Nom.bindR_at_ok]
  rw [halpha]
  simp only [Nom.bindR_at_ok]
  rw [hm]
  rfl

theorem eatom_alpha {src : Src} {n q : Nat} {c : Char} {r : List Char}
    (hc : c.isAlpha = true) (hd : src.drop q = c :: r)
    (hkw : kwPrefix (c :: r) = false)
    (hra : Nom.spanLen Char.isAlpha r = 0)
    (hru : ['_'].isPrefixOf r = false) :
    eatom src (n + 1) q = .ok (q + 1) (.id ⟨q, q + 1⟩) := by
  have hu : eunit src q = .soft q := by
    unfold eunit Nom.pair
    rw [Nom.tag_fail (by
      rw [hd]
      simp [List.isPrefixOf, alpha_beq_false hc
        (by decide : ('(').isAlpha = false)])]
    rfl
  have hid : eid src q = .ok (q + 1) (.id ⟨q, q + 1⟩) := by
    unfold eid Nom.map
    rw [parse_id_exact hc hd hkw hra hru]
    rfl
  simp only [eatom, Nom.alt5, Nom.alt4, Nom.alt2, hu, hid]

theorem eapp_alpha {src : Src} {n q : Nat} {c : Char} {r : List Char}
    (hc : c.isAlpha = true) (hd : src.drop q = c :: r)
    (hkw : kwPrefix (c :: r) = false)
    (hra : Nom.spanLen Char.isAlpha r = 0)
    (hru : ['_'].isPrefixOf r = false)
    (hrw : Nom.spanLen Char.isWhitespace r = 0)
    (hrp : ['('].isPrefixOf r = false) :
    eapp src (n + 2) q = .ok (q + 1) (.id ⟨q, q + 1⟩) := by
  have hatom := eatom_alpha (n := n) hc hd hkw hra hru
  have hdr : src.drop (q + 1) = r := drop_succ_of hd
  have hws : Nom.multispace0 src (q + 1) = .ok (q + 1) () := by
    rw [Nom.multispace0_at, hdr, hrw]
  have hargs : eargs src (n + 1) (q + 1) = .soft (q + 1) := by
    cases n with
    | zero =>
      simp only [eargs]
      unfold Nom.delimited Nom.pair
      rw [Nom.tag_fail (by rw [hdr]; exact hrp)]
      rfl
    | succ m =>
      simp only [eargs]
      unfold Nom.delimited Nom.pair
      rw [Nom.tag_fail (by rw [hdr]; exact hrp)]
      rfl
  have hprec : Nom.preceded (Nom.multispace0 src) (eargs src (n + 1)) (q + 1)
      = .soft (q + 1) := by
    unfold Nom.preceded
    rw [hws]
    simp only [Nom.bindR_at_ok]
    exact hargs
  have hm : Nom.many0 (n + 1)
      (Nom.preceded (Nom.multispace0 src) (eargs src (n + 1))) (q + 1)
      = .ok (q + 1) [] := by
    simp only [Nom.many0, hprec]
  simp only [eapp]
  unfold Nom.pair
  rw [hatom]
  simp only [Nom.bindR_at_ok]
  rw [hm]
  simp only [Nom.bindR_at_ok, List.foldl_nil]

theorem eitem_alpha {src : Src} {n q : Nat} {c : Char} {r : List Char}
    (hc : c.isAlpha = true) (hd : src.drop q = c :: r)
    (hkw : kwPrefix (c :: r) = false)
    (hra : Nom.spanLen Char.isAlpha r = 0)
    (hru : ['_'].isPrefixOf r = false)
    (hrw : Nom.spanLen Char.isWhitespace r = 0)
    (hrp : ['('].isPrefixOf r = false) :
    eitem src (n + 4) q = .ok (q + 1) (.id ⟨q, q + 1⟩) := by
  have hell : Nom.map Expr.expand (parse_ellipsis src) q = .soft q := by
    unfold Nom.map parse_ellipsis Nom.preceded
    rw [Nom.tag_fail (by
      rw [hd]
      simp [List.isPrefixOf, alpha_beq_false hc
        (by decide : ('.').isAlpha = false)])]
    rfl
  have happ := eapp_alpha (n := n) hc hd hkw hra hru hrw hrp
  simp only [eitem, Nom.alt2, hell, eother, Nom.alt3, happ]

theorem eargs_single {src : Src} {n p : Nat} {c : Char} {rest : List Char}
    (hc : c.isAlpha = true)
    (hd : src.drop p = '(' :: c :: ')' :: rest) :
    eargs src (n + 6) p = .ok (p + 3) (⟨p, p + 3⟩, [.id ⟨p + 1, p + 2⟩]) := by
  have hd1 : src.drop (p + 1) = c :: ')' :: rest := drop_succ_of hd
  have hd2 : src.drop (p + 2) = ')' :: rest := drop_succ_of hd1
  have hkw : kwPrefix (c :: ')' :: rest) = false := kwPrefix_rparen c rest
  have hra : Nom.spanLen Char.isAlpha (')' :: rest) = 0 :=
    spanLen_cons_false (by decide) _
  have hru : ['_'].isPrefixOf (')' :: rest) = false := by
    simp [List.isPrefixOf, (by decide : (('_' : Char) == ')') = false)]
  have hrw : Nom.spanLen Char.isWhitespace (')' :: rest) = 0 :=
    spanLen_cons_false (by decide) _
  have hrp : ['('].isPrefixOf (')' :: rest) = false := by
    simp [List.isPrefixOf, (by decide : (('(' : Char) == ')') = false)]
  have hitem := eitem_alpha (n := n + 1) hc hd1 hkw hra hru hrw hrp
  have hopen : Nom.pair (Nom.tag ['('] src) (Nom.multispace0 src) p
      = .ok (p + 1) ((), ()) := by
    have htag : Nom.tag ['('] src p = .ok (p + 1) () := by
      simpa using Nom.tag_of_drop (t := ['(']) (r := c :: ')' :: rest)
        (by rw [hd]; rfl)
    have hws : Nom.multispace0 src (p + 1) = .ok (p + 1) () := by
      rw [Nom.multispace0_at, hd1,
        spanLen_cons_false (alpha_not_ws hc) _]
    unfold Nom.pair
    rw [htag]
    simp only [Nom.bindR_at_ok]
    rw [hws]
    rfl
  have hsep : sepComma src (p + 2) = .soft (p + 2) := by
    unfold sepComma Nom.preceded Nom.terminated
    have hws2 : Nom.multispace0 src (p + 2) = .ok (p + 2) () := by
      rw [Nom.multispace0_at, hd2, spanLen_cons_false (by decide) _]
    rw [hws2]
    simp only [Nom.bindR_at_ok]
    rw [Nom.tag_fail (by
      rw [hd2]
      simp [List.isPrefixOf, (by decide : ((',' : Char) == ')') = false)])]
    rfl
  have hterm : Nom.terminated (eitem src (n + 5)) (sepComma src) (p + 1)
      = .soft (p + 2) := by
    unfold Nom.terminated
    rw [hitem]
    simp only [Nom.bindR_at_ok]
    rw [hsep]
    rfl
  have hm : Nom.many0 (n + 5)
      (Nom.terminated (eitem src (n + 5)) (sepComma src)) (p + 1)
      = .ok (p + 1) [] := by
    simp only [Nom.many0, hterm]
  have hopt : Nom.opt (eitem src (n + 5)) (p + 1)
      = .ok (p + 2) (some (.id ⟨p + 1, p + 2⟩)) := by
    unfold Nom.opt
    rw [hitem]
  have hmid : Nom.pair
      (Nom.many0 (n + 5)
        (Nom.terminated (eitem src (n + 5)) (sepComma src)))
      (Nom.opt (eitem src (n + 5))) (p + 1)
      = .ok (p + 2) ([], some (.id ⟨p + 1, p + 2⟩)) := by
    unfold Nom.pair
    rw [hm]
    simp only [Nom.bindR_at_ok]
    rw [hopt]
    rfl
  have hclose : Nom.pair (Nom.multispace0 src) (Nom.tag [')'] src) (p + 2)
      = .ok (p + 3) ((), ()) := by
    have hws2 : Nom.multispace0 src (p + 2) = .ok (p + 2) () := by
      rw [Nom.multispace0_at, hd2, spanLen_cons_false (by decide) _]
    have htag : Nom.tag [')'] src (p + 2) = .ok (p + 3) () := by
      simpa using Nom.tag_of_drop (t := [')']) (r := rest) (by rw [hd2]; rfl)
    unfold Nom.pair
    rw [hws2]
    simp only [Nom.bindR_at_ok]
    rw [htag]
    rfl
  simp only [eargs]
  unfold Nom.delimited
  rw [hopen]
  simp only [Nom.bindR_at_ok]
  rw [hmid]
  simp only [Nom.bindR_at_ok]
  rw [hclose]
  simp only [Nom.bindR_at_ok]
  rfl

theorem spanLen_zero_ws_head {g : Char → Bool}
    (hgw : ∀ c : Char, c.isWhitespace = true → g c = false)
    {w : List Char} (hw : allWS w) {d : Char} (hd : g d = false)
    (r : List Char) : Nom.spanLen g (w ++ d :: r) = 0 := by
  cases w with
  | nil => exact spanLen_cons_false hd r
  | cons c w' =>
    exact spanLen_cons_false (hgw c (hw c (List.mem_cons_self c w'))) _

theorem prefix1_false_ws_head {d e : Char}
    (hne : ∀ c : Char, c.isWhitespace = true → (d == c) = false)
    {w : List Char} (hw : allWS w) (hde : (d == e) = false) (r : List Char) :
    [d].isPrefixOf (w ++ e :: r) = false := by
  cases w with
  | nil => simp [List.isPrefixOf, hde]
  | cons c w' =>
    simp [List.isPrefixOf, hne c (hw c (List.mem_cons_self c w'))]

theorem many0_stop {α : Type} {p : Parser α} {n i e : Nat}
    (hp : p i = .soft e) : Nom.many0 (n + 1) p i = .ok i [] := by
  simp only [Nom.many0, hp]

theorem many0_step_ok {α : Type} {p : Parser α} {n i j k : Nat} {a : α}
    {as : List α} (hp : p i = .ok j a) (hne : j ≠ i)
    (hm : Nom.many0 n p j = .ok k as) :
    Nom.many0 (n + 1) p i = .ok k (a :: as) := by
  simp only [Nom.many0, hp]
  rw [if_neg hne, hm]
  rfl

/-- With arbitrary whitespace between the callee and its argument list,
`f (x)`-shaped input parses to the same single-application structure as
the whitespace-free form; only offsets shift by the whitespace length. -/
theorem eapp_ws1 (n : Nat) (w : List Char) (hw : allWS w) :
    eapp ('f' :: (w ++ ['(', 'x', ')'])) (n + 8) 0
      = .ok (1 + w.length + 3)
        (.app ⟨0, 1 + w.length + 3⟩ (.id ⟨0, 1⟩)
          ⟨1 + w.length, 1 + w.length + 3⟩
          [.id ⟨1 + w.length + 1, 1 + w.length + 2⟩]) := by
  set src := 'f' :: (w ++ ['(', 'x', ')']) with hsrc
  have hd0 : src.drop 0 = 'f' :: (w ++ ['(', 'x', ')']) := rfl
  have hra : Nom.spanLen Char.isAlpha (w ++ ['(', 'x', ')']) = 0 :=
    spanLen_zero_ws_head (fun c h => ws_not_alpha h) hw (by decide) _
  have hru : ['_'].isPrefixOf (w ++ ['(', 'x', ')']) = false :=
    prefix1_false_ws_head
      (fun c h => ws_beq_false h (by decide)) hw (by decide) _
  have hatom : eatom src (n + 7) 0 = .ok 1 (.id ⟨0, 1⟩) := by
    simpa using eatom_alpha (n := n + 6) (by decide) hd0
      (kwPrefix_f _) hra hru
  have hd1 : src.drop 1 = w ++ ['(', 'x', ')'] := by
    simpa using drop_succ_of hd0
  have hws1 : Nom.multispace0 src 1 = .ok (1 + w.length) () := by
    rw [Nom.multispace0_at, hd1, spanLen_append_all (fun c h => hw c h),
      spanLen_cons_false (by decide)]
    simp
  have hd2 : src.drop (1 + w.length) = ['(', 'x', ')'] := drop_shift hd1
  have hargs1 : eargs src (n + 7) (1 + w.length)
      = .ok (1 + w.length + 3) (⟨1 + w.length, 1 + w.length + 3⟩,
        [.id ⟨1 + w.length + 1, 1 + w.length + 2⟩]) :=
    eargs_single (n := n + 1) (by decide) hd2
  have hprec1 : Nom.preceded (Nom.multispace0 src) (eargs src (n + 7)) 1
      = .ok (1 + w.length + 3) (⟨1 + w.length, 1 + w.length + 3⟩,
        [.id ⟨1 + w.length + 1, 1 + w.length + 2⟩]) := by
    unfold Nom.preceded
    rw [hws1]
    simp only [Nom.bindR_at_ok]
    exact hargs1
  have hd3 : src.drop (1 + w.length + 3) = [] := by
    simpa using drop_shift (i := 1 + w.length) (x := ['(', 'x', ')'])
      (r := []) (by simpa using hd2)
  have hws2 : Nom.multispace0 src (1 + w.length + 3)
      = .ok (1 + w.length + 3) () := by
    rw [Nom.multispace0_at, hd3]
    rfl
  have hargs2 : eargs src (n + 7) (1 + w.length + 3)
      = .soft (1 + w.length + 3) := by
    simp only [eargs]
    unfold Nom.delimited Nom.pair
    rw [Nom.tag_fail (by rw [hd3]; simp [List.isPrefixOf])]
    rfl
  have hprec2 : Nom.preceded (Nom.multispace0 src) (eargs src (n + 7))
      (1 + w.length + 3) = .soft (1 + w.length + 3) := by
    unfold Nom.preceded
    rw [hws2]
    simp only [Nom.bindR_at_ok]
    exact hargs2
  have hm2 : Nom.many0 (n + 6)
      (Nom.preceded (Nom.multispace0 src) (eargs src (n + 7)))
      (1 + w.length + 3) = .ok (1 + w.length + 3) [] :=
    many0_stop hprec2
  have hm : Nom.many0 (n + 7)
      (Nom.preceded (Nom.multispace0 src) (eargs src (n + 7))) 1
      = .ok (1 + w.length + 3) [(⟨1 + w.length, 1 + w.length + 3⟩,
        [.id ⟨1 + w.length + 1, 1 + w.length + 2⟩])] :=
    many0_step_ok hprec1 (by omega) hm2
  simp only [eapp]
  unfold Nom.pair
  rw [hatom]
  simp only [Nom.bindR_at_ok]
  rw [hm]
  simp only [Nom.bindR_at_ok, List.foldl_cons, List.foldl_nil]
  rfl

/-- With arbitrary whitespace between the first and second argument
lists, `f(a) (b)`-shaped input parses to the same left-folded
two-application chain as the whitespace-free form. -/
theorem eapp_ws2 (n : Nat) (w : List Char) (hw : allWS w) :
    eapp ('f' :: '(' :: 'a' :: ')' :: (w ++ ['(', 'b', ')'])) (n + 8) 0
      = .ok (4 + w.length + 3)
        (.app ⟨0, 4 + w.length + 3⟩
          (.app ⟨0, 4⟩ (.id ⟨0, 1⟩) ⟨1, 4⟩ [.id ⟨2, 3⟩])
          ⟨4 + w.length, 4 + w.length + 3⟩
          [.id ⟨4 + w.length + 1, 4 + w.length + 2⟩]) := by
  set src := 'f' :: '(' :: 'a' :: ')' :: (w ++ ['(', 'b', ')']) with hsrc
  have hd0 : src.drop 0 = 'f' :: '(' :: 'a' :: ')' :: (w ++ ['(', 'b', ')']) :=
    rfl
  have hra : Nom.spanLen Char.isAlpha
      ('(' :: 'a' :: ')' :: (w ++ ['(', 'b', ')'])) = 0 :=
    spanLen_cons_false (by decide) _
  have hru : ['_'].isPrefixOf ('(' :: 'a' :: ')' :: (w ++ ['(', 'b', ')']))
      = false := by
    simp [List.isPrefixOf, (by decide : (('_' : Char) == '(') = false)]
  have hatom : eatom src (n + 7) 0 = .ok 1 (.id ⟨0, 1⟩) := by
    simpa using eatom_alpha (n := n + 6) (by decide) hd0
      (kwPrefix_f _) hra hru
  have hd1 : src.drop 1 = '(' :: 'a' :: ')' :: (w ++ ['(', 'b', ')']) := by
    simpa using drop_succ_of hd0
  have hws1 : Nom.multispace0 src 1 = .ok 1 () := by
    rw [Nom.multispace0_at, hd1, spanLen_cons_false (by decide)]
  have hargs1 : eargs src (n + 7) 1 = .ok 4 (⟨1, 4⟩, [.id ⟨2, 3⟩]) := by
    simpa using eargs_single (n := n + 1) (by decide) hd1
  have hprec1 : Nom.preceded (Nom.multispace0 src) (eargs src (n + 7)) 1
      = .ok 4 (⟨1, 4⟩, [.id ⟨2, 3⟩]) := by
    unfold Nom.preceded
    rw [hws1]
    simp only [Nom.bindR_at_ok]
    exact hargs1
  have hd4 : src.drop 4 = w ++ ['(', 'b', ')'] := by
    simpa using drop_shift (i := 1) (x := ['(', 'a', ')'])
      (r := w ++ ['(', 'b', ')']) (by simpa using hd1)
  have hws2 : Nom.multispace0 src 4 = .ok (4 + w.length) () := by
    rw [Nom.multispace0_at, hd4, spanLen_append_all (fun c h => hw c h),
      spanLen_cons_false (by decide)]
    simp
  have hd5 : src.drop (4 + w.length) = ['(', 'b', ')'] := drop_shift hd4
  have hargs2 : eargs src (n + 7) (4 + w.length)
      = .ok (4 + w.length + 3) (⟨4 + w.length, 4 + w.length + 3⟩,
        [.id ⟨4 + w.length + 1, 4 + w.length + 2⟩]) :=
    eargs_single (n := n + 1) (by decide) hd5
  have hprec2 : Nom.preceded (Nom.multispace0 src) (eargs src (n + 7)) 4
      = .ok (4 + w.length + 3) (⟨4 + w.length, 4 + w.length + 3⟩,
        [.id ⟨4 + w.length + 1, 4 + w.length + 2⟩]) := by
    unfold Nom.preceded
    rw [hws2]
    simp only [Nom.bindR_at_ok]
    exact hargs2
  have hd6 : src.drop (4 + w.length + 3) = [] := by
    simpa using drop_shift (i := 4 + w.length) (x := ['(', 'b', ')'])
      (r := []) (by simpa using hd5)
  have hws3 : Nom.multispace0 src (4 + w.length + 3)
      = .ok (4 + w.length + 3) () := by
    rw [Nom.multispace0_at, hd6]
    rfl
  have hargs3 : eargs src (n + 7) (4 + w.length + 3)
      = .soft (4 + w.length + 3) := by
    simp only [eargs]
    unfold Nom.delimited Nom.pair
    rw [Nom.tag_fail (by rw [hd6]; simp [List.isPrefixOf])]
    rfl
  have hprec3 : Nom.preceded (Nom.multispace0 src) (eargs src (n + 7))
      (4 + w.length + 3) = .soft (4 + w.length + 3) := by
    unfold Nom.preceded
    rw [hws3]
    simp only [Nom.bindR_at_ok]
    exact hargs3
  have hm3 : Nom.many0 (n + 5)
      (Nom.preceded (Nom.multispace0 src) (eargs src (n + 7)))
      (4 + w.length + 3) = .ok (4 + w.length + 3) [] :=
    many0_stop hprec3
  have hm2 : Nom.many0 (n + 6)
      (Nom.preceded (Nom.multispace0 src) (eargs src (n + 7))) 4
      = .ok (4 + w.length + 3) [(⟨4 + w.length, 4 + w.length + 3⟩,
        [.id ⟨4 + w.length + 1, 4 + w.length + 2⟩])] :=
    many0_step_ok hprec2 (by omega) hm3
  have hm : Nom.many0 (n + 7)
      (Nom.preceded (Nom.multispace0 src) (eargs src (n + 7))) 1
      = .ok (4 + w.length + 3)
        [(⟨1, 4⟩, [.id ⟨2, 3⟩]),
          (⟨4 + w.length, 4 + w.length + 3⟩,
            [.id ⟨4 + w.length + 1, 4 + w.length + 2⟩])] :=
    many0_step_ok hprec1 (by omega) hm2
  simp only [eapp]
  unfold Nom.pair
  rw [hatom]
  simp only [Nom.bindR_at_ok]
  rw [hm]
  simp only [Nom.bindR_at_ok, List.foldl_cons, List.foldl_nil]
  rfl

/-- C1: application chains fold left-associatively with growing spans:
whenever `eapp` succeeds, the root's span is exactly the consumed range
(so the outermost node's span covers the entire chain) and every `app`
node on the callee spine spans from the chain's start to the end of its
own argument-list span; and parsing `f(x, y)(z)` yields
`App(App(f,[x,y]), [z])` with those spans. -/
theorem claim_C1 :
    (∀ (src : Src) (n i j : Nat) (e : Expr), eapp src n i = .ok j e →
      espan e = ⟨i, j⟩ ∧ appSpine i e) ∧
    eapp ("f(x, y)(z)".toList) 40 0 = .ok 10
      (.app ⟨0, 10⟩
        (.app ⟨0, 7⟩ (.id ⟨0, 1⟩) ⟨1, 7⟩ [.id ⟨2, 3⟩, .id ⟨5, 6⟩])
        ⟨7, 10⟩ [.id ⟨8, 9⟩]) :=
  ⟨fun _ _ _ _ _ h => ⟨(eapp_spine h).1, (eapp_spine h).2.1⟩, rfl⟩

/-- C2 counterexample: parsing `".. , x"` succeeds and stores span
`[0, 3)` on the Expand ellipsis node, whose character at index 2 is the
whitespace `' '` — so a node's span can include trailing whitespace,
contradicting the claim's "no trailing whitespace is included in any
node's span". -/
theorem claim_C2_counterexample :
    expr (".. , x".toList) 40 0 = .ok 6
      (.tuple ⟨0, 6⟩ [.expand ⟨⟨0, 3⟩, none⟩, .id ⟨5, 6⟩]) ∧
    (".. , x".toList).get? 2 = some ' ' ∧ (' ').isWhitespace = true :=
  ⟨rfl, rfl, rfl⟩

/-- C2 (amended): span-consumption exactness: every successful rule
stamps exactly its consumed range `[i, j)` as the produced node's span —
including ellipsis, tag and arm payload spans — though the consumed text
itself may end in whitespace (for instance an ellipsis whose optional
name is absent consumes the whitespace after `..` into its span). -/
theorem claim_C2 :
    (∀ (src : Src) (n i j : Nat) (e : Expr), expr src n i = .ok j e →
      espan e = ⟨i, j⟩) ∧
    (∀ (src : Src) (n i j : Nat) (p : Pattern), pattern src n i = .ok j p →
      pspan p = ⟨i, j⟩) ∧
    (∀ (src : Src) (n i j : Nat) (a : Arm), arm src n i = .ok j a →
      a.span = ⟨i, j⟩) ∧
    (∀ (src : Src) (n i j : Nat) (st : Statement),
      statement src n i = .ok j st → stspan st = ⟨i, j⟩) ∧
    (∀ (src : Src) (n i j : Nat) (e : Expr), eitem src n i = .ok j e →
      espan e = ⟨i, j⟩) ∧
    (∀ (src : Src) (n i j : Nat) (p : Pattern), pitem src n i = .ok j p →
      pspan p = ⟨i, j⟩) ∧
    (∀ (src : Src) (i j : Nat) (el : Ellipsis),
      parse_ellipsis src i = .ok j el → el.span = ⟨i, j⟩) ∧
    (∀ (src : Src) (i j : Nat) (v : Span × Span),
      parse_tag src i = .ok j v → v.1 = ⟨i, j⟩) :=
  ⟨fun src n i j e h => ((invs_all src n).exprI i j e h).2.1,
    fun src n i j p h => ((invs_all src n).patternI i j p h).2.1,
    fun src n i j a h => ((invs_all src n).armI i j a h).2.1,
    fun src n i j st h => ((invs_all src n).statementI i j st h).2.1,
    fun src n i j e h => ((invs_all src n).eitemI i j e h).2.1,
    fun src n i j p h => ((invs_all src n).pitemI i j p h).2.1,
    fun _ _ _ _ h => (parse_ellipsis_inv h).2.1,
    fun _ _ _ _ h => (parse_tag_inv h).2.1⟩

/-- C3: span containment: every tree produced by a successful `expr` or
`pattern` parse satisfies the containment invariant `eWF`/`pWF` — each
parent's span fully contains every child's span and every span-carrying
payload (an App's argument-list span, an Arm's pattern and expression) —
exhibited concretely on `case x of x = x end`. -/
theorem claim_C3 :
    (∀ (src : Src) (n i j : Nat) (e : Expr), expr src n i = .ok j e → eWF e) ∧
    (∀ (src : Src) (n i j : Nat) (p : Pattern), pattern src n i = .ok j p →
      pWF p) ∧
    (ecase ("case x of x = x end".toList) 40 0 = .ok 19
      (.caseE ⟨0, 19⟩ (.id ⟨5, 6⟩)
        [.mk ⟨7, 15⟩ (.id ⟨10, 11⟩) (.id ⟨14, 15⟩)]) ∧
      eWF (.caseE ⟨0, 19⟩ (.id ⟨5, 6⟩)
        [.mk ⟨7, 15⟩ (.id ⟨10, 11⟩) (.id ⟨14, 15⟩)])) :=
  ⟨fun src n i j e h => ((invs_all src n).exprI i j e h).2.2,
    fun src n i j p h => ((invs_all src n).patternI i j p h).2.2,
    rfl,
    by simp [eWF, armsWF, armWF, eListWF, espan, pspan, pWF, Arm.span,
      Span.covers]⟩

/-- C4: curried function literals desugar right-nested: whenever `efn`
succeeds its result is an `fn` node spanning exactly the consumed range,
and every `fn` level's span runs from that level's own parameter start to
the overall end of the literal (`fnLevels`); and parsing
`x y z -> f(x, y)` yields `Fn(x, Fn(y, Fn(z, App(f, [x, y]))))`. -/
theorem claim_C4 :
    (∀ (src : Src) (n i j : Nat) (e : Expr), efn src n i = .ok j e →
      espan e = ⟨i, j⟩ ∧ isEFn e ∧ fnLevels j e) ∧
    efn ("x y z -> f(x, y)".toList) 40 0 = .ok 16
      (.fn ⟨0, 16⟩ ⟨0, 1⟩
        (.fn ⟨2, 16⟩ ⟨2, 3⟩
          (.fn ⟨4, 16⟩ ⟨4, 5⟩
            (.app ⟨9, 16⟩ (.id ⟨9, 10⟩) ⟨10, 16⟩
              [.id ⟨11, 12⟩, .id ⟨14, 15⟩])))) :=
  ⟨fun src n i j e h => (fn_master src n).1 i j e h, rfl⟩

/-- C5: integer trailing-underscore hard commit: on any input that is a
digit group, further `_`-joined digit groups, then optional whitespace
and `_`, `parse_int` fails fatally (nom's `Err::Failure`, produced by the
`cut` lookahead); a fatal failure stops `alt2` from trying its sibling;
and when no digit is present `parse_int` fails softly at its start with
no consumption.  Exhibited on `"12_34 _x"` (fatal at offset 5) and
`"abc"` (soft at 0). -/
theorem claim_C5 :
    (∀ (src : Src) (s : Nat) (g0 : List Char) (gs : List (List Char))
      (ws rest : List Char),
      src.drop s = g0 ++ undTail gs (ws ++ '_' :: rest) →
      g0 ≠ [] → (∀ c ∈ g0, c.isDigit = true) →
      (∀ g ∈ gs, g ≠ [] ∧ ∀ c ∈ g, c.isDigit = true) →
      allWS ws → (ws = [] → Nom.spanLen Char.isDigit rest = 0) →
      ∃ e, parse_int src s = .fatal e) ∧
    (∀ (src : Src) (s : Nat), Nom.spanLen Char.isDigit (src.drop s) = 0 →
      parse_int src s = .soft s) ∧
    (∀ (p q : Parser Span) (i e : Nat), p i = .fatal e →
      Nom.alt2 p q i = .fatal e) ∧
    parse_int ("12_34 _x".toList) 0 = .fatal 5 ∧
    parse_int ("abc".toList) 0 = .soft 0 :=
  ⟨fun _ _ _ _ _ _ hd h1 h2 h3 h4 h5 =>
      parse_int_fatal hd h1 h2 h3 h4 h5,
    fun _ _ h => parse_int_soft h,
    fun _ _ _ _ h => Nom.alt2_fatal h,
    rfl, rfl⟩

/-- C6 counterexample: `often` is a purely alphabetic word distinct from
every reserved keyword, yet `parse_id` rejects it (the guard
`not(parse_kw)` is a literal prefix check, and `of` is a prefix of
`often`) — contradicting the claim that such inputs are accepted. -/
theorem claim_C6_counterexample :
    parse_id ("often".toList) 0 = .soft 0 ∧
    ("often".toList ≠ "case".toList ∧ "often".toList ≠ "of".toList ∧
      "often".toList ≠ "do".toList ∧ "often".toList ≠ "end".toList) ∧
    (∀ c ∈ "often".toList, c.isAlpha = true) :=
  ⟨rfl, by decide, by decide⟩

/-- C6 (amended): the identifier rule rejects its input — softly, at its
starting offset, with no consumption — exactly when one of the reserved
keywords `case`, `of`, `do`, `end` is a literal PREFIX of the remaining
input (so `often`, `endpoint`, `cases` are also rejected), and accepts
every other input beginning with an alphabetic character, stamping
exactly the consumed range. -/
theorem claim_C6 :
    (∀ (src : Src) (s : Nat), kwPrefix (src.drop s) = true →
      parse_id src s = .soft s) ∧
    (∀ (src : Src) (s : Nat), kwPrefix (src.drop s) = false →
      Nom.spanLen Char.isAlpha (src.drop s) ≠ 0 →
      ∃ j, s < j ∧ j ≤ src.length ∧ parse_id src s = .ok j ⟨s, j⟩) ∧
    parse_id ("xyz".toList) 0 = .ok 3 ⟨0, 3⟩ ∧
    parse_id ("endpoint".toList) 0 = .soft 0 ∧
    parse_id ("cases".toList) 0 = .soft 0 :=
  ⟨fun _ _ h => parse_id_reject h,
    fun _ _ h1 h2 => parse_id_accept h1 h2,
    rfl, rfl, rfl⟩

/-- C7 counterexample: on `f (x)` the expression chain consumes the
whitespace-separated argument list and builds an App, while the pattern
chain (`papp` has no `multispace0` before its argument lists) stops after
`f` and builds no application — so the two rules do not behave alike on
inputs with whitespace between the head and a list. -/
theorem claim_C7_counterexample :
    eapp ("f (x)".toList) 40 0
      = .ok 5 (.app ⟨0, 5⟩ (.id ⟨0, 1⟩) ⟨2, 5⟩ [.id ⟨3, 4⟩]) ∧
    papp ("f (x)".toList) 40 0 = .ok 1 (.id ⟨0, 1⟩) :=
  ⟨rfl, rfl⟩

/-- C7 (amended): pattern application chains fold exactly like expression
chains — left-associatively, every spine node spanning from the chain's
start to its own argument-list end, the root spanning exactly the
consumed range — but only when no whitespace separates the head from its
argument lists; `f(x, y)(z)` parses to structurally identical trees with
identical spans under both rules (`SimPE`). -/
theorem claim_C7 :
    (∀ (src : Src) (n i j : Nat) (p : Pattern), papp src n i = .ok j p →
      pspan p = ⟨i, j⟩ ∧ pappSpine i p) ∧
    papp ("f(x, y)(z)".toList) 40 0 = .ok 10
      (.app ⟨0, 10⟩
        (.app ⟨0, 7⟩ (.id ⟨0, 1⟩) ⟨1, 7⟩ [.id ⟨2, 3⟩, .id ⟨5, 6⟩])
        ⟨7, 10⟩ [.id ⟨8, 9⟩]) ∧
    eapp ("f(x, y)(z)".toList) 40 0 = .ok 10
      (.app ⟨0, 10⟩
        (.app ⟨0, 7⟩ (.id ⟨0, 1⟩) ⟨1, 7⟩ [.id ⟨2, 3⟩, .id ⟨5, 6⟩])
        ⟨7, 10⟩ [.id ⟨8, 9⟩]) ∧
    SimPE
      (.app ⟨0, 10⟩
        (.app ⟨0, 7⟩ (.id ⟨0, 1⟩) ⟨1, 7⟩ [.id ⟨2, 3⟩, .id ⟨5, 6⟩])
        ⟨7, 10⟩ [.id ⟨8, 9⟩])
      (.app ⟨0, 10⟩
        (.app ⟨0, 7⟩ (.id ⟨0, 1⟩) ⟨1, 7⟩ [.id ⟨2, 3⟩, .id ⟨5, 6⟩])
        ⟨7, 10⟩ [.id ⟨8, 9⟩]) :=
  ⟨fun _ _ _ _ _ h => papp_spine h, rfl, rfl,
    SimPE.app _ _
      (SimPE.app _ _ (SimPE.id _)
        (SimListPE.cons (SimPE.id _)
          (SimListPE.cons (SimPE.id _) SimListPE.nil)))
      (SimListPE.cons (SimPE.id _) SimListPE.nil)⟩

/-- C8: tuple patterns preserve ellipsis position and optional bound
name: `x, .., y` parses to a 3-item tuple pattern whose middle item is an
unnamed Collect, and `x, ..y, z` to one whose middle Collect carries the
bound name `y` (span `[5, 6)`). -/
theorem claim_C8 :
    pattern ("x, .., y".toList) 40 0 = .ok 8
      (.tuple ⟨0, 8⟩ [.id ⟨0, 1⟩, .collect ⟨⟨3, 5⟩, none⟩, .id ⟨7, 8⟩]) ∧
    pattern ("x, ..y, z".toList) 40 0 = .ok 9
      (.tuple ⟨0, 9⟩
        [.id ⟨0, 1⟩, .collect ⟨⟨3, 6⟩, some ⟨5, 6⟩⟩, .id ⟨8, 9⟩]) :=
  ⟨rfl, rfl⟩

/-- C9 counterexample: on `"(x"` the top-level `expr` fails reporting
position 0 (the failure of its LAST alternative, `eother`, whose own last
branch `edo` failed at the opening brace check at 0), even though the
attempted `eatom`/`eparen` alternative had reached position 2 before
failing — so the returned failure does not carry the furthest position
reached. -/
theorem claim_C9_counterexample :
    expr ("(x".toList) 31 0 = .soft 0 ∧
    eatom ("(x".toList) 30 0 = .soft 2 ∧
    eparen ("(x".toList) 30 0 = .soft 2 :=
  ⟨rfl, rfl, rfl⟩

/-- C9 (amended): when every top-level alternative fails softly, the
failure `expr` returns is the failure of the last alternative tried
(`eother`'s), as nom's `alt` keeps the last error — not the furthest
position reached across all alternatives. -/
theorem claim_C9 (src : Src) (n i a b c : Nat)
    (h1 : efn src n i = .soft a) (h2 : etuple src n i = .soft b)
    (h3 : eother src n i = .soft c) : expr src (n + 1) i = .soft c :=
  expr_last_err h1 h2 h3

theorem claim_C9_witness : expr ("(x".toList) (30 + 1) 0 = .soft 0 :=
  claim_C9 ("(x".toList) 30 0 0 0 0 rfl rfl rfl

/-- C10: arbitrary whitespace may separate the callee from each trailing
argument list: for every whitespace run `w`, `f w (x)` and `f(a) w (b)`
parse under `eapp` to the same left-folded App structure as the
whitespace-free `f(x)` and `f(a)(b)` (the span-erased trees are equal;
only the stored offsets shift by `w.length`), the whitespace being
consumed but recorded in no node. -/
theorem claim_C10 :
    (∀ (n : Nat) (w : List Char), allWS w →
      eapp ('f' :: (w ++ ['(', 'x', ')'])) (n + 8) 0
        = .ok (1 + w.length + 3)
          (.app ⟨0, 1 + w.length + 3⟩ (.id ⟨0, 1⟩)
            ⟨1 + w.length, 1 + w.length + 3⟩
            [.id ⟨1 + w.length + 1, 1 + w.length + 2⟩]) ∧
      wipeE (.app ⟨0, 1 + w.length + 3⟩ (.id ⟨0, 1⟩)
          ⟨1 + w.length, 1 + w.length + 3⟩
          [.id ⟨1 + w.length + 1, 1 + w.length + 2⟩])
        = wipeE (.app ⟨0, 4⟩ (.id ⟨0, 1⟩) ⟨1, 4⟩ [.id ⟨2, 3⟩])) ∧
    eapp ("f(x)".toList) 40 0
      = .ok 4 (.app ⟨0, 4⟩ (.id ⟨0, 1⟩) ⟨1, 4⟩ [.id ⟨2, 3⟩]) ∧
    (∀ (n : Nat) (w : List Char), allWS w →
      eapp ('f' :: '(' :: 'a' :: ')' :: (w ++ ['(', 'b', ')'])) (n + 8) 0
        = .ok (4 + w.length + 3)
          (.app ⟨0, 4 + w.length + 3⟩
            (.app ⟨0, 4⟩ (.id ⟨0, 1⟩) ⟨1, 4⟩ [.id ⟨2, 3⟩])
            ⟨4 + w.length, 4 + w.length + 3⟩
            [.id ⟨4 + w.length + 1, 4 + w.length + 2⟩]) ∧
      wipeE (.app ⟨0, 4 + w.length + 3⟩
          (.app ⟨0, 4⟩ (.id ⟨0, 1⟩) ⟨1, 4⟩ [.id ⟨2, 3⟩])
          ⟨4 + w.length, 4 + w.length + 3⟩
          [.id ⟨4 + w.length + 1, 4 + w.length + 2⟩])
        = wipeE (.app ⟨0, 7⟩
            (.app ⟨0, 4⟩ (.id ⟨0, 1⟩) ⟨1, 4⟩ [.id ⟨2, 3⟩])
            ⟨4, 7⟩ [.id ⟨5, 6⟩])) ∧
    eapp ("f(a)(b)".toList) 40 0
      = .ok 7 (.app ⟨0, 7⟩
          (.app ⟨0, 4⟩ (.id ⟨0, 1⟩) ⟨1, 4⟩ [.id ⟨2, 3⟩])
          ⟨4, 7⟩ [.id ⟨5, 6⟩]) :=
  ⟨fun n w hw => ⟨eapp_ws1 n w hw, by simp [wipeE, wipeEList]⟩,
    rfl,
    fun n w hw => ⟨eapp_ws2 n w hw, by simp [wipeE, wipeEList]⟩,
    rfl⟩

end FastRs
